import Mathlib

/-!
Verification of `yesnoai/python-tools` against its specification.

The repository holds two scripts:
* `remove_comments.py` — class `CommentRemover`, a line-oriented C/C++
  comment stripper that protects string and character literals with
  numbered placeholder tokens;
* `pss_resource.py` — `parse_section_sizes`, a readelf-report parser that
  extracts the Size column of a fixed set of target sections.

Text is embedded as `List Char`.  Python's regular expressions used by the
scripts are deterministic on their inputs (every alternation and every
quantifier boundary is character-disjoint), so each is embedded as the
corresponding deterministic scanner.
-/

namespace PyTools

/-- ASCII whitespace as treated by Python's `str.strip` / `\s`. -/
def pyIsSpace (c : Char) : Bool :=
  c = ' ' || c = '\t' || c = '\n' || c = '\r' || c = '\x0b' || c = '\x0c'

/-- A line is blank when every character is whitespace. -/
def isBlank (l : List Char) : Bool := l.all pyIsSpace

/-- Python `str.rstrip()`: remove trailing whitespace. -/
def pyRstrip (l : List Char) : List Char := (l.reverse.dropWhile pyIsSpace).reverse

/-- Python `str.strip()`: remove leading and trailing whitespace. -/
def pyStrip (l : List Char) : List Char := pyRstrip (l.dropWhile pyIsSpace)

/-- Python `str.split('\n')`. -/
def splitNl : List Char → List (List Char)
  | [] => [[]]
  | c :: r =>
    if c = '\n' then [] :: splitNl r
    else
      match splitNl r with
      | h :: t => (c :: h) :: t
      | [] => [[c]]

/-- Python `'\n'.join(...)`. -/
def joinNl : List (List Char) → List Char
  | [] => []
  | [l] => l
  | l :: r => l ++ '\n' :: joinNl r

/-- `strStarts pat l` holds when `pat` is a prefix of `l`. -/
def strStarts : List Char → List Char → Bool
  | [], _ => true
  | _ :: _, [] => false
  | p :: ps, c :: cs => p = c && strStarts ps cs

/-- `occursSub pat l` holds when `pat` occurs as a contiguous substring of `l`. -/
def occursSub (pat : List Char) : List Char → Bool
  | [] => strStarts pat []
  | c :: r => strStarts pat (c :: r) || occursSub pat r

/-- Python `str.find` for a two-character pattern: index of the first
occurrence of `[a, b]`, if any. -/
def findIdx2 (a b : Char) : List Char → Option Nat
  | c :: d :: r =>
    if c = a ∧ d = b then some 0
    else (findIdx2 a b (d :: r)).map (· + 1)
  | _ => none

theorem strStarts_length {pat l : List Char} (h : strStarts pat l = true) :
    pat.length ≤ l.length := by
  induction pat generalizing l with
  | nil => simp
  | cons p ps ih =>
    cases l with
    | nil => simp [strStarts] at h
    | cons c cs =>
      simp only [strStarts, Bool.and_eq_true] at h
      simpa using ih h.2

/-- Python `str.replace(pat, rep, 1)`: replace the first occurrence only. -/
def replaceFirst : List Char → List Char → List Char → List Char
  | [], pat, rep => if strStarts pat [] then rep else []
  | c :: r, pat, rep =>
    if strStarts pat (c :: r) then rep ++ (c :: r).drop pat.length
    else c :: replaceFirst r pat rep

/-- Worker for `replaceAll`; the fuel only makes the recursion structural
and any fuel of at least the length of the text gives the same value. -/
def replaceAllF : Nat → List Char → List Char → List Char → List Char
  | 0, l, _, _ => l
  | fuel + 1, l, pat, rep =>
    if pat ≠ [] ∧ strStarts pat l then
      rep ++ replaceAllF fuel (l.drop pat.length) pat rep
    else
      match l with
      | [] => []
      | c :: r => c :: replaceAllF fuel r pat rep

/-- Python `str.replace(pat, rep)` for a nonempty `pat`: replace every
non-overlapping occurrence, left to right. -/
def replaceAll (l pat rep : List Char) : List Char :=
  replaceAllF l.length l pat rep

/-- Decimal digit character, as produced by Python `str(i)`. -/
def digitChar (n : Nat) : Char := Char.ofNat (48 + n % 10)

/-- Worker for `natDigits`; any fuel above the value itself suffices. -/
def natDigitsF : Nat → Nat → List Char
  | 0, _ => []
  | fuel + 1, n =>
    if n < 10 then [digitChar n]
    else natDigitsF fuel (n / 10) ++ [digitChar (n % 10)]

/-- Decimal representation of a natural number, as Python `str(i)`. -/
def natDigits (n : Nat) : List Char := natDigitsF (n + 1) n

/-- The placeholder `f'__STRING_{i}__'` of `_protect_strings`. -/
def strPlaceholder (i : Nat) : List Char :=
  "__STRING_".data ++ natDigits i ++ "__".data

/-- The placeholder `f'__CHAR_{i}__'` of `_protect_strings`. -/
def charPlaceholder (i : Nat) : List Char :=
  "__CHAR_".data ++ natDigits i ++ "__".data

/-- Scanner for the tail of the literal patterns `\"(?:\\.|[^\"\\])*\"` and
`\'(?:\\.|[^\'\\])*\'` of `CommentRemover`, entered just after the opening
quote `q`.  Both alternatives of the regex are disjoint on their first
character and the star cannot stop before an unescaped quote, so the regex
attempt is this deterministic scan.  Returns the matched tail (content plus
closing quote) and the rest of the line. -/
def litScan (q : Char) : List Char → Option (List Char × List Char)
  | [] => none
  | [c] => if c = q then some ([q], []) else none
  | c :: d :: r =>
    if c = q then some ([q], d :: r)
    else if c = '\\' then (litScan q r).map (fun p => (c :: d :: p.1, p.2))
    else (litScan q (d :: r)).map (fun p => (c :: p.1, p.2))

theorem litScan_rest_le (q : Char) :
    ∀ (n : Nat) (l : List Char), l.length ≤ n →
      ∀ m rest, litScan q l = some (m, rest) → rest.length ≤ l.length := by
  intro n
  induction n with
  | zero =>
    intro l hl m rest h
    have : l = [] := List.length_eq_zero.mp (Nat.le_zero.mp hl)
    subst this
    simp [litScan] at h
  | succ n ih =>
    intro l hl m rest h
    match l with
    | [] => simp [litScan] at h
    | [c] =>
      simp only [litScan] at h
      split at h
      · cases h; simp
      · cases h
    | c :: d :: r =>
      simp only [litScan] at h
      split at h
      · cases h
        simp only [List.length_cons]
        omega
      · split at h
        · simp only [Option.map_eq_some'] at h
          obtain ⟨⟨m', rest'⟩, hscan, heq⟩ := h
          cases heq
          have := ih r (by simp at hl ⊢; omega) m' rest' hscan
          simp at this ⊢
          omega
        · simp only [Option.map_eq_some'] at h
          obtain ⟨⟨m', rest'⟩, hscan, heq⟩ := h
          cases heq
          have := ih (d :: r) (by simp at hl ⊢; omega) m' rest' hscan
          simp at this ⊢
          omega

/-- Worker for `findLits`; any fuel of at least the length of the text
gives the same value. -/
def findLitsF (q : Char) : Nat → List Char → List (List Char)
  | 0, _ => []
  | _, [] => []
  | fuel + 1, c :: r =>
    if c = q then
      match litScan q r with
      | some (m, rest) => (q :: m) :: findLitsF q fuel rest
      | none => findLitsF q fuel r
    else findLitsF q fuel r

/-- All matches of the literal pattern with quote `q`, in order, as
`re.finditer` yields them: the scan tries each position left to right, and
resumes after the end of each match. -/
def findLits (q : Char) (l : List Char) : List (List Char) :=
  findLitsF q l.length l

/-- The per-match loop of `_protect_strings`: for each match text (computed
on the line as it was when `re.finditer` ran), replace its first occurrence
in the evolving line by the numbered placeholder and extend the mapping. -/
def protectPass (ph : Nat → List Char) :
    List Char → List (List Char) → Nat → List Char × List (List Char × List Char)
  | line, [], _ => (line, [])
  | line, m :: ms, i =>
    let line' := replaceFirst line m (ph i)
    let res := protectPass ph line' ms (i + 1)
    (res.1, (ph i, m) :: res.2)

/-- `CommentRemover._protect_strings`: protect double-quoted string literals,
then single-quoted character literals (the second pass runs on the line
already protected by the first), returning the protected line and the
placeholder map in insertion order. -/
def protect_strings (line : List Char) : List Char × List (List Char × List Char) :=
  let ms := findLits '"' line
  let r1 := protectPass strPlaceholder line ms 0
  let cs := findLits '\'' r1.1
  let r2 := protectPass charPlaceholder r1.1 cs 0
  (r2.1, r1.2 ++ r2.2)

/-- `CommentRemover._restore_strings`: substitute every occurrence of each
placeholder back, in map insertion order (Python `str.replace`). -/
def restore_strings (line : List Char) (mp : List (List Char × List Char)) : List Char :=
  mp.foldl (fun acc e => replaceAll acc e.1 e.2) line

/-- `re.sub('//.*?$', '', line)` on a newline-free line: delete from the
first `//` to the end of the line. -/
def removeLineComment : List Char → List Char
  | c :: d :: r => if c = '/' ∧ d = '/' then [] else c :: removeLineComment (d :: r)
  | l => l

/-- `CommentRemover._process_line`. -/
def process_line (line : List Char) (inComment : Bool) : Option (List Char) × Bool :=
  if inComment then (none, true)
  else
    let pr := protect_strings line
    let p1 := removeLineComment pr.1
    let pc :=
      match findIdx2 '/' '*' p1 with
      | some i =>
        match findIdx2 '*' '/' (p1.drop (i + 2)) with
        | some j => (p1.take i ++ p1.drop (i + 2 + j + 2), inComment)
        | none => (p1.take i, true)
      | none => (p1, inComment)
    let restored := restore_strings pc.1 pr.2
    let trimmed := pyRstrip restored
    if pyStrip trimmed = [] then (none, pc.2) else (some trimmed, pc.2)

/-- Loop state of `CommentRemover.remove_comments`: accumulated result
lines, the carried inside-block-comment flag, and `multiline_buffer` (a
list the source initializes empty and never appends to). -/
structure RCState where
  res : List (List Char)
  inML : Bool
  buffer : List (List Char)

/-- One iteration of the `for line in lines` loop of `remove_comments`. -/
def rcStep (st : RCState) (line : List Char) : RCState :=
  if st.inML then
    match findIdx2 '*' '/' line with
    | some e =>
      let remaining := line.drop (e + 2)
      if pyStrip remaining = [] then { st with inML := false }
      else
        match process_line remaining false with
        | (some p, _) =>
          match st.buffer with
          | b :: _ => { res := st.res ++ [b ++ p], inML := false, buffer := [] }
          | [] => { res := st.res ++ [p], inML := false, buffer := [] }
        | (none, _) => { st with inML := false }
    | none => st
  else
    match process_line line st.inML with
    | (some p, f) => { st with res := st.res ++ [p], inML := f }
    | (none, f) => { st with inML := f }

/-- `CommentRemover.remove_comments` on a character list. -/
def removeCommentsL (code : List Char) : List Char :=
  if pyStrip code = [] then code
  else joinNl ((splitNl code).foldl rcStep ⟨[], false, []⟩).res

/-- `CommentRemover.remove_comments`. -/
def remove_comments (code : String) : String :=
  ⟨removeCommentsL code.data⟩

/-! ## `pss_resource.py` -/

/-- The character class `\d`. -/
def isDigitCh (c : Char) : Bool := '0' ≤ c && c ≤ '9'

/-- The character class `[0-9a-fA-F]`. -/
def isHexDig (c : Char) : Bool :=
  ('0' ≤ c && c ≤ '9') || ('a' ≤ c && c ≤ 'f') || ('A' ≤ c && c ≤ 'F')

/-- Consume a maximal nonempty run of characters of a class (`p+` between
boundaries disjoint from `p`), returning the run and the rest. -/
def takeCls (p : Char → Bool) (l : List Char) : Option (List Char × List Char) :=
  if l.takeWhile p = [] then none else some (l.takeWhile p, l.dropWhile p)

/-- Consume `\s+`: at least one whitespace character, maximally. -/
def eatSpaces1 : List Char → Option (List Char)
  | [] => none
  | c :: r => if pyIsSpace c then some (r.dropWhile pyIsSpace) else none

/-- The part of the pattern after `\[\s*\d+\]`:
`\s+(\S+)\s+\S+\s+[0-9a-fA-F]+\s+[0-9a-fA-F]+\s+([0-9a-fA-F]+)`. -/
def pssAfterIndex (r2 : List Char) : Option (List Char × List Char) :=
  (eatSpaces1 r2).bind fun r3 =>
  (takeCls (fun c => !pyIsSpace c) r3).bind fun nm =>
  (eatSpaces1 nm.2).bind fun r4 =>
  (takeCls (fun c => !pyIsSpace c) r4).bind fun ty =>
  (eatSpaces1 ty.2).bind fun r5 =>
  (takeCls isHexDig r5).bind fun a1 =>
  (eatSpaces1 a1.2).bind fun r6 =>
  (takeCls isHexDig r6).bind fun a2 =>
  (eatSpaces1 a2.2).bind fun r7 =>
  (takeCls isHexDig r7).bind fun sz =>
  some (nm.1, sz.1)

/-- The part of the pattern after `\[`: `\s*\d+\]` followed by the rest. -/
def pssAfterBracket (r1 : List Char) : Option (List Char × List Char) :=
  (takeCls isDigitCh r1).bind fun d1 =>
    match d1.2 with
    | [] => none
    | c2 :: r2 => if c2 = ']' then pssAfterIndex r2 else none

/-- One attempt of the section-header pattern
`\[\s*\d+\]\s+(\S+)\s+\S+\s+[0-9a-fA-F]+\s+[0-9a-fA-F]+\s+([0-9a-fA-F]+)`
of `parse_section_sizes`, anchored at the head of the input.  Every
quantifier boundary of the pattern is character-disjoint, so the
backtracking engine behaves as this maximal-munch scan.  Returns the two
capture groups: section name and size. -/
def pssMatchAt : List Char → Option (List Char × List Char)
  | [] => none
  | c :: r0 => if c = '[' then pssAfterBracket (r0.dropWhile pyIsSpace) else none

/-- `pattern.search(line)`: try the anchored attempt at every position,
left to right. -/
def pssSearch : List Char → Option (List Char × List Char)
  | [] => none
  | c :: r =>
    match pssMatchAt (c :: r) with
    | some g => some g
    | none => pssSearch r

/-- Value of one hexadecimal digit. -/
def hexVal (c : Char) : Nat :=
  if '0' ≤ c && c ≤ '9' then c.toNat - 48
  else if 'a' ≤ c && c ≤ 'f' then c.toNat - 87
  else c.toNat - 55

/-- `int(s, 16)` on a string of hexadecimal digits. -/
def hexToNat (l : List Char) : Nat := l.foldl (fun a c => 16 * a + hexVal c) 0

/-- The fixed keys of the `targets` dict of `parse_section_sizes`. -/
def targetNames : List (List Char) :=
  [".ramVectors".data, ".appTextRam".data, ".data".data, ".noinit".data,
   ".bss".data, ".bootstrapText".data, ".bootstrapze[...]".data,
   ".bootstrapData".data, ".bootstrapBss".data]

/-- The `targets` dict initialized with every value `None`.  A dict is an
association list with its keys in insertion order; a value records the
captured hex string and its base-16 integer. -/
def initTargets : List (List Char × Option (List Char × Nat)) :=
  targetNames.map (fun n => (n, none))

/-- Dict key lookup: `some` of the stored value when the key is present. -/
def dictLookup (d : List (List Char × Option (List Char × Nat))) (n : List Char) :
    Option (Option (List Char × Nat)) :=
  match d with
  | [] => none
  | e :: r => if e.1 = n then some e.2 else dictLookup r n

/-- `targets[name] = {...}` on an existing key. -/
def dictUpdate (d : List (List Char × Option (List Char × Nat))) (n : List Char)
    (v : List Char × Nat) : List (List Char × Option (List Char × Nat)) :=
  d.map (fun e => if e.1 = n then (e.1, some v) else e)

/-- Body of the `for line in f` loop of `parse_section_sizes`: on a pattern
match whose name is a key of `targets`, store the hex string and its
base-16 value. -/
def pssStep (d : List (List Char × Option (List Char × Nat))) (line : List Char) :
    List (List Char × Option (List Char × Nat)) :=
  match pssSearch line with
  | some g => if (dictLookup d g.1).isSome then dictUpdate d g.1 (g.2, hexToNat g.2) else d
  | none => d

/-- `parse_section_sizes` applied to the text of a readable report file. -/
def parse_section_sizes (report : List Char) :
    List (List Char × Option (List Char × Nat)) :=
  (splitNl report).foldl pssStep initTargets

/-- `parse_section_sizes` including its `try/except` shell: the file
contents are given as an `Option`, `none` standing for a file that cannot
be opened or read, for which every `except` clause of the source executes
a bare `return` (that is, returns `None`). -/
def parse_section_sizes_file (contents : Option (List Char)) :
    Option (List (List Char × Option (List Char × Nat))) :=
  contents.map parse_section_sizes

/-- The name-filtered match of one line: the captured size when the
pattern matches the line with section name exactly `n`. -/
def matchFor (n : List Char) (line : List Char) : Option (List Char) :=
  match pssSearch line with
  | some g => if g.1 = n then some g.2 else none
  | none => none

/-- The hex size of the last line of `lines` matching with name `n`,
if any. -/
def lastMatch (lines : List (List Char)) (n : List Char) : Option (List Char) :=
  match lines with
  | [] => none
  | l :: rest =>
    match lastMatch rest n with
    | some h => some h
    | none => matchFor n l

/-! ## Infrastructure lemmas

Fuel invariance for the fueled workers, and unfolding equations matching
the shape of the Python operations they embed. -/

theorem strStarts_nil_iff (pat : List Char) : strStarts pat [] = true ↔ pat = [] := by
  cases pat <;> simp [strStarts]

theorem replaceAllF_nil (pat rep : List Char) : ∀ f, replaceAllF f [] pat rep = []
  | 0 => rfl
  | f + 1 => by
    simp only [replaceAllF]
    split
    · next h =>
      exact absurd ((strStarts_nil_iff pat).mp h.2) h.1
    · rfl

theorem replaceAllF_congr (pat rep : List Char) :
    ∀ f g l, l.length ≤ f → l.length ≤ g →
      replaceAllF f l pat rep = replaceAllF g l pat rep := by
  intro f
  induction f with
  | zero =>
    intro g l hf _
    have : l = [] := List.length_eq_zero.mp (Nat.le_zero.mp hf)
    subst this
    simp [replaceAllF_nil]
  | succ f ih =>
    intro g l hf hg
    cases l with
    | nil => simp [replaceAllF_nil]
    | cons c r =>
      cases g with
      | zero => simp at hg
      | succ g =>
        simp only [replaceAllF]
        split
        · next h =>
          have hple : pat.length ≤ (c :: r).length := strStarts_length h.2
          have hppos : 0 < pat.length := by
            cases pat with
            | nil => exact absurd rfl h.1
            | cons a as => simp
          have hlen : ((c :: r).drop pat.length).length ≤ f := by
            simp only [List.length_drop, List.length_cons] at *
            omega
          have hlen' : ((c :: r).drop pat.length).length ≤ g := by
            simp only [List.length_drop, List.length_cons] at *
            omega
          rw [ih g _ hlen hlen']
        · have h1 : r.length ≤ f := by simp at hf; omega
          have h2 : r.length ≤ g := by simp at hg; omega
          rw [ih g r h1 h2]

/-- `replaceAll` unfolding: an occurrence at the head is replaced and the
scan continues after it. -/
theorem replaceAll_pos (l pat rep : List Char) (h1 : pat ≠ [])
    (h2 : strStarts pat l = true) :
    replaceAll l pat rep = rep ++ replaceAll (l.drop pat.length) pat rep := by
  cases l with
  | nil =>
    exact absurd ((strStarts_nil_iff pat).mp h2) h1
  | cons c r =>
    show replaceAllF (c :: r).length (c :: r) pat rep = _
    have hple : pat.length ≤ (c :: r).length := strStarts_length h2
    have hppos : 0 < pat.length := by
      cases pat with
      | nil => exact absurd rfl h1
      | cons a as => simp
    simp only [List.length_cons, replaceAllF, if_pos (And.intro h1 h2)]
    congr 1
    apply replaceAllF_congr
    · simp only [List.length_drop, List.length_cons] at *
      omega
    · exact Nat.le_refl _

/-- `replaceAll` unfolding: no occurrence at the head. -/
theorem replaceAll_neg (c : Char) (r pat rep : List Char)
    (h : ¬(pat ≠ [] ∧ strStarts pat (c :: r) = true)) :
    replaceAll (c :: r) pat rep = c :: replaceAll r pat rep := by
  show replaceAllF (c :: r).length (c :: r) pat rep = _
  simp only [List.length_cons, replaceAllF, if_neg h]
  rfl

theorem findLitsF_nil (q : Char) : ∀ f, findLitsF q f [] = []
  | 0 => rfl
  | _ + 1 => rfl

theorem findLitsF_congr (q : Char) :
    ∀ f g l, l.length ≤ f → l.length ≤ g → findLitsF q f l = findLitsF q g l := by
  intro f
  induction f with
  | zero =>
    intro g l hf _
    have : l = [] := List.length_eq_zero.mp (Nat.le_zero.mp hf)
    subst this
    simp [findLitsF_nil]
  | succ f ih =>
    intro g l hf hg
    cases l with
    | nil => simp [findLitsF_nil]
    | cons c r =>
      cases g with
      | zero => simp at hg
      | succ g =>
        simp only [findLitsF]
        split
        · cases hscan : litScan q r with
          | none => exact ih g r (by simp at hf; omega) (by simp at hg; omega)
          | some p =>
            obtain ⟨m, rest⟩ := p
            have hrest : rest.length ≤ r.length :=
              litScan_rest_le q r.length r (Nat.le_refl _) m rest hscan
            exact congrArg (fun x => (q :: m) :: x)
              (ih g rest (by simp at hf; omega) (by simp at hg; omega))
        · exact ih g r (by simp at hf; omega) (by simp at hg; omega)

theorem findLits_nil (q : Char) : findLits q [] = [] := rfl

theorem findLits_cons_ne (q c : Char) (r : List Char) (h : ¬c = q) :
    findLits q (c :: r) = findLits q r := by
  show findLitsF q (r.length + 1) (c :: r) = _
  simp only [findLitsF, if_neg h]
  rfl

theorem findLits_cons_match (q : Char) (r m rest : List Char)
    (hscan : litScan q r = some (m, rest)) :
    findLits q (q :: r) = (q :: m) :: findLits q rest := by
  show findLitsF q (r.length + 1) (q :: r) = _
  have hrest : rest.length ≤ r.length :=
    litScan_rest_le q r.length r (Nat.le_refl _) m rest hscan
  simp only [findLitsF, if_pos rfl, hscan, if_true]
  rw [findLitsF_congr q r.length rest.length rest hrest (Nat.le_refl _)]
  rfl

theorem findLits_cons_nomatch (q : Char) (r : List Char)
    (hscan : litScan q r = none) :
    findLits q (q :: r) = findLits q r := by
  show findLitsF q (r.length + 1) (q :: r) = _
  simp only [findLitsF, if_pos rfl, hscan, if_true]
  rfl

/-! ### Whitespace and line-splitting lemmas -/

theorem pyRstrip_eq_nil_iff (l : List Char) : pyRstrip l = [] ↔ isBlank l = true := by
  simp [pyRstrip, isBlank, List.dropWhile_eq_nil_iff, List.all_eq_true]

theorem isBlank_dropWhile_iff (l : List Char) :
    isBlank (l.dropWhile pyIsSpace) = true ↔ isBlank l = true := by
  simp only [isBlank, List.all_eq_true]
  constructor
  · intro h c hc
    have hsplit := List.takeWhile_append_dropWhile (p := pyIsSpace) (l := l)
    rw [← hsplit] at hc
    rcases List.mem_append.mp hc with h1 | h2
    · exact List.mem_takeWhile_imp h1
    · exact h c h2
  · intro h c hc
    exact h c (List.dropWhile_sublist pyIsSpace |>.mem hc)

theorem pyStrip_eq_nil_iff (l : List Char) : pyStrip l = [] ↔ isBlank l = true := by
  unfold pyStrip
  rw [pyRstrip_eq_nil_iff, isBlank_dropWhile_iff]

theorem pyStrip_ne_nil_of_mem {c : Char} {l : List Char} (h : c ∈ l)
    (hc : pyIsSpace c = false) : pyStrip l ≠ [] := by
  rw [Ne, pyStrip_eq_nil_iff]
  intro hb
  simp only [isBlank, List.all_eq_true] at hb
  rw [hb c h] at hc
  cases hc

theorem isBlank_pyRstrip_iff (l : List Char) :
    isBlank (pyRstrip l) = true ↔ isBlank l = true := by
  simp only [isBlank, pyRstrip, List.all_eq_true]
  constructor
  · intro h c hc
    have hsplit := List.takeWhile_append_dropWhile (p := pyIsSpace) (l := l.reverse)
    have hc' : c ∈ l.reverse := by simpa using hc
    rw [← hsplit] at hc'
    rcases List.mem_append.mp hc' with h1 | h2
    · exact List.mem_takeWhile_imp h1
    · exact h c (by simpa using h2)
  · intro h c hc
    simp only [List.mem_reverse] at hc
    exact h c (by simpa using (List.dropWhile_sublist pyIsSpace |>.mem hc))

theorem pyStrip_pyRstrip_eq_nil_iff (l : List Char) :
    pyStrip (pyRstrip l) = [] ↔ isBlank l = true := by
  rw [pyStrip_eq_nil_iff, isBlank_pyRstrip_iff]

theorem pyRstrip_append (xs ys : List Char) (h : pyRstrip xs = xs) :
    pyRstrip (xs ++ ys) = xs ++ pyRstrip ys := by
  unfold pyRstrip at *
  rw [List.reverse_append, List.dropWhile_append]
  by_cases hy : ys.reverse.dropWhile pyIsSpace = []
  · have hx : xs.reverse.dropWhile pyIsSpace = xs.reverse := by
      have := congrArg List.reverse h
      simpa using this
    simp [hy, hx]
  · have : (ys.reverse.dropWhile pyIsSpace).isEmpty = false := by
      simpa [List.isEmpty_iff] using hy
    simp [this, List.reverse_append]

theorem pyRstrip_concat_of_not_space (xs : List Char) (c : Char)
    (hc : pyIsSpace c = false) : pyRstrip (xs ++ [c]) = xs ++ [c] := by
  unfold pyRstrip
  rw [List.reverse_append]
  simp [List.dropWhile_cons, hc]

theorem splitNl_ne_nil (l : List Char) : splitNl l ≠ [] := by
  cases l with
  | nil => simp [splitNl]
  | cons c r =>
    simp only [splitNl]
    split
    · simp
    · cases hs : splitNl r <;> simp

theorem splitNl_cons_ne (c : Char) (r : List Char) (h : ¬c = '\n') :
    ∃ h2 t, splitNl r = h2 :: t ∧ splitNl (c :: r) = (c :: h2) :: t := by
  cases hs : splitNl r with
  | nil => exact absurd hs (splitNl_ne_nil r)
  | cons h2 t =>
    refine ⟨h2, t, rfl, ?_⟩
    simp only [splitNl, if_neg h, hs]

theorem splitNl_no_nl (l : List Char) : ∀ s ∈ splitNl l, '\n' ∉ s := by
  induction l with
  | nil =>
    intro s hs
    simp [splitNl] at hs
    simp [hs]
  | cons c r ih =>
    intro s hs
    by_cases h : c = '\n'
    · subst h
      simp only [splitNl, if_pos rfl] at hs
      rcases List.mem_cons.mp hs with h1 | h2
      · simp [h1]
      · exact ih s h2
    · obtain ⟨h2, t, hs1, hs2⟩ := splitNl_cons_ne c r h
      rw [hs2] at hs
      rcases List.mem_cons.mp hs with h1 | h3
      · subst h1
        intro hmem
        rcases List.mem_cons.mp hmem with h4 | h5
        · exact h h4.symm
        · exact ih h2 (hs1 ▸ List.mem_cons_self h2 t) h5
      · exact ih s (hs1 ▸ List.mem_cons_of_mem h2 h3)

theorem splitNl_head_prefix (l : List Char) :
    ∃ h t rest, splitNl l = h :: t ∧ l = h ++ rest := by
  induction l with
  | nil => exact ⟨[], [], [], rfl, rfl⟩
  | cons c r ih =>
    by_cases hc : c = '\n'
    · subst hc
      exact ⟨[], splitNl r, '\n' :: r, by simp [splitNl], rfl⟩
    · obtain ⟨h, t, rest, h1, h2⟩ := ih
      obtain ⟨h2', t', hs1, hs2⟩ := splitNl_cons_ne c r hc
      rw [h1] at hs1
      cases hs1
      exact ⟨c :: h, t, rest, hs2, by simp [h2]⟩

theorem splitNl_infix (code : List Char) :
    ∀ s ∈ splitNl code, ∃ u v, code = u ++ s ++ v := by
  induction code with
  | nil =>
    intro s hs
    simp [splitNl] at hs
    exact ⟨[], [], by simp [hs]⟩
  | cons c r ih =>
    intro s hs
    by_cases h : c = '\n'
    · subst h
      simp only [splitNl, if_pos rfl] at hs
      rcases List.mem_cons.mp hs with h1 | h2
      · exact ⟨[], '\n' :: r, by simp [h1]⟩
      · obtain ⟨u, v, huv⟩ := ih s h2
        exact ⟨'\n' :: u, v, by simp [huv]⟩
    · obtain ⟨h2, t, hs1, hs2⟩ := splitNl_cons_ne c r h
      rw [hs2] at hs
      rcases List.mem_cons.mp hs with h1 | h3
      · subst h1
        obtain ⟨hh, tt, rest, hp1, hp2⟩ := splitNl_head_prefix r
        rw [hs1] at hp1
        cases hp1
        exact ⟨[], rest, by simp [hp2]⟩
      · obtain ⟨u, v, huv⟩ := ih s (hs1 ▸ List.mem_cons_of_mem h2 h3)
        exact ⟨c :: u, v, by simp [huv]⟩

theorem splitNl_nonNl (l : List Char) (h : '\n' ∉ l) : splitNl l = [l] := by
  induction l with
  | nil => rfl
  | cons c r ih =>
    have hc : ¬c = '\n' := fun e => h (by simp [e])
    obtain ⟨h2, t, hs1, hs2⟩ := splitNl_cons_ne c r hc
    rw [ih (fun m => h (List.mem_cons_of_mem c m))] at hs1
    cases hs1
    exact hs2

theorem splitNl_append_nl (x rest : List Char) (h : '\n' ∉ x) :
    splitNl (x ++ '\n' :: rest) = x :: splitNl rest := by
  induction x with
  | nil => simp [splitNl]
  | cons c x' ih =>
    have hc : ¬c = '\n' := fun e => h (by simp [e])
    obtain ⟨h2, t, hs1, hs2⟩ := splitNl_cons_ne c (x' ++ '\n' :: rest) hc
    rw [ih (fun m => h (List.mem_cons_of_mem c m))] at hs1
    cases hs1
    simpa using hs2

theorem splitNl_joinNl (xs : List (List Char)) :
    xs ≠ [] → (∀ s ∈ xs, '\n' ∉ s) → splitNl (joinNl xs) = xs := by
  induction xs with
  | nil => intro h; exact absurd rfl h
  | cons x xs' ih =>
    intro _ hmem
    cases xs' with
    | nil => simpa [joinNl] using splitNl_nonNl x (hmem x (by simp))
    | cons y t =>
      rw [show joinNl (x :: y :: t) = x ++ '\n' :: joinNl (y :: t) from rfl]
      rw [splitNl_append_nl x _ (hmem x (by simp))]
      rw [ih (by simp) (fun s hs => hmem s (List.mem_cons_of_mem x hs))]

/-! ### Character-provenance lemmas -/

theorem mem_replaceFirst {c : Char} (l pat rep : List Char) :
    c ∈ replaceFirst l pat rep → c ∈ l ∨ c ∈ rep := by
  induction l with
  | nil =>
    intro h
    simp only [replaceFirst] at h
    split at h
    · exact Or.inr h
    · cases h
  | cons a r ih =>
    intro h
    simp only [replaceFirst] at h
    split at h
    · rcases List.mem_append.mp h with h1 | h2
      · exact Or.inr h1
      · exact Or.inl (List.mem_of_mem_drop h2)
    · rcases List.mem_cons.mp h with h1 | h2
      · exact Or.inl (by simp [h1])
      · rcases ih h2 with h3 | h3
        · exact Or.inl (List.mem_cons_of_mem a h3)
        · exact Or.inr h3

theorem mem_replaceAllF {c : Char} (pat rep : List Char) :
    ∀ f l, c ∈ replaceAllF f l pat rep → c ∈ l ∨ c ∈ rep := by
  intro f
  induction f with
  | zero => intro l h; exact Or.inl h
  | succ f ih =>
    intro l h
    simp only [replaceAllF] at h
    split at h
    · rcases List.mem_append.mp h with h1 | h2
      · exact Or.inr h1
      · rcases ih _ h2 with h3 | h3
        · exact Or.inl (List.mem_of_mem_drop h3)
        · exact Or.inr h3
    · cases l with
      | nil => cases h
      | cons a r =>
        rcases List.mem_cons.mp h with h1 | h2
        · exact Or.inl (by simp [h1])
        · rcases ih r h2 with h3 | h3
          · exact Or.inl (List.mem_cons_of_mem a h3)
          · exact Or.inr h3

theorem mem_replaceAll {c : Char} (l pat rep : List Char) :
    c ∈ replaceAll l pat rep → c ∈ l ∨ c ∈ rep :=
  mem_replaceAllF pat rep l.length l

theorem mem_removeLineComment {c : Char} : ∀ l, c ∈ removeLineComment l → c ∈ l := by
  intro l
  induction l with
  | nil => intro h; exact h
  | cons a t ih =>
    intro h
    cases t with
    | nil => exact h
    | cons b r =>
      simp only [removeLineComment] at h
      split at h
      · cases h
      · rcases List.mem_cons.mp h with h1 | h2
        · exact List.mem_cons.mpr (Or.inl h1)
        · exact List.mem_cons_of_mem a (ih h2)

theorem mem_pyRstrip {c : Char} (l : List Char) : c ∈ pyRstrip l → c ∈ l := by
  intro h
  unfold pyRstrip at h
  rw [List.mem_reverse] at h
  have := List.dropWhile_sublist (l := l.reverse) pyIsSpace |>.mem h
  simpa using this

theorem litScan_decomp (q : Char) :
    ∀ (n : Nat) (l : List Char), l.length ≤ n →
      ∀ m rest, litScan q l = some (m, rest) →
        ∃ content, m = content ++ [q] ∧ l = content ++ q :: rest := by
  intro n
  induction n with
  | zero =>
    intro l hl m rest h
    have : l = [] := List.length_eq_zero.mp (Nat.le_zero.mp hl)
    subst this
    simp [litScan] at h
  | succ n ih =>
    intro l hl m rest h
    match l with
    | [] => simp [litScan] at h
    | [c] =>
      simp only [litScan] at h
      split at h
      · next hc =>
        cases h
        exact ⟨[], by simp, by simp [hc]⟩
      · cases h
    | c :: d :: r =>
      simp only [litScan] at h
      split at h
      · next hc =>
        cases h
        exact ⟨[], by simp, by simp [hc]⟩
      · next hc =>
        split at h
        · next hb =>
          simp only [Option.map_eq_some'] at h
          obtain ⟨⟨m', rest'⟩, hscan, heq⟩ := h
          cases heq
          obtain ⟨content', hm', hl'⟩ := ih r (by simp at hl ⊢; omega) m' rest' hscan
          exact ⟨c :: d :: content', by simp [hm'], by simp [hl']⟩
        · simp only [Option.map_eq_some'] at h
          obtain ⟨⟨m', rest'⟩, hscan, heq⟩ := h
          cases heq
          obtain ⟨content', hm', hl'⟩ := ih (d :: r) (by simp at hl ⊢; omega) m' rest' hscan
          exact ⟨c :: content', by simp [hm'], by simp [hl']⟩

theorem mem_findLits (q : Char) :
    ∀ (n : Nat) (l : List Char), l.length ≤ n →
      ∀ m ∈ findLits q l, ∀ c ∈ m, c ∈ l := by
  intro n
  induction n with
  | zero =>
    intro l hl m hm
    have : l = [] := List.length_eq_zero.mp (Nat.le_zero.mp hl)
    subst this
    rw [findLits_nil] at hm
    cases hm
  | succ n ih =>
    intro l hl m hm c hc
    cases l with
    | nil => rw [findLits_nil] at hm; cases hm
    | cons a r =>
      have hr : r.length ≤ n := by simp at hl; omega
      by_cases ha : a = q
      · subst ha
        cases hscan : litScan a r with
        | some p =>
          obtain ⟨m0, rest⟩ := p
          rw [findLits_cons_match _ _ _ _ hscan] at hm
          obtain ⟨content, hm0, hrr⟩ := litScan_decomp a r.length r (Nat.le_refl _) m0 rest hscan
          rcases List.mem_cons.mp hm with h1 | h2
          · subst h1
            rcases List.mem_cons.mp hc with hc1 | hc2
            · simp [hc1]
            · rw [hm0] at hc2
              apply List.mem_cons_of_mem a
              rw [hrr]
              rcases List.mem_append.mp hc2 with h3 | h3
              · exact List.mem_append.mpr (Or.inl h3)
              · rw [List.mem_singleton] at h3
                subst h3
                exact List.mem_append.mpr (Or.inr (by simp))
          · have hrest : rest.length ≤ n := by
              have : rest.length ≤ r.length :=
                litScan_rest_le a r.length r (Nat.le_refl _) m0 rest hscan
              omega
            have hcrest := ih rest hrest m h2 c hc
            apply List.mem_cons_of_mem a
            rw [hrr]
            exact List.mem_append.mpr (Or.inr (List.mem_cons_of_mem a hcrest))
        | none =>
          rw [findLits_cons_nomatch _ _ hscan] at hm
          exact List.mem_cons_of_mem a (ih r hr m hm c hc)
      · rw [findLits_cons_ne _ _ _ ha] at hm
        exact List.mem_cons_of_mem a (ih r hr m hm c hc)

/-- Characters that can occur in a placeholder token. -/
def phChars : List Char := "_STRINGCHA0123456789".data

theorem digitChar_mem_digits (n : Nat) : digitChar n ∈ "0123456789".data := by
  unfold digitChar
  have h : n % 10 < 10 := Nat.mod_lt _ (by omega)
  set k := n % 10 with hk
  interval_cases k <;> decide

theorem mem_natDigitsF_digits : ∀ f n c, c ∈ natDigitsF f n → c ∈ "0123456789".data := by
  intro f
  induction f with
  | zero => intro n c h; cases h
  | succ f ih =>
    intro n c h
    simp only [natDigitsF] at h
    split at h
    · rw [List.mem_singleton] at h
      subst h
      exact digitChar_mem_digits n
    · rcases List.mem_append.mp h with h1 | h2
      · exact ih _ _ h1
      · rw [List.mem_singleton] at h2
        subst h2
        exact digitChar_mem_digits (n % 10)

theorem mem_strPlaceholder (i : Nat) (c : Char) (h : c ∈ strPlaceholder i) :
    c ∈ phChars := by
  unfold strPlaceholder at h
  have hlit : ∀ x ∈ "__STRING_".data, x ∈ phChars := by decide
  have hlit2 : ∀ x ∈ "__".data, x ∈ phChars := by decide
  have hdig : ∀ x ∈ "0123456789".data, x ∈ phChars := by decide
  rcases List.mem_append.mp h with h1 | h2
  · rcases List.mem_append.mp h1 with h3 | h4
    · exact hlit c h3
    · exact hdig c (mem_natDigitsF_digits _ _ _ h4)
  · exact hlit2 c h2

theorem mem_charPlaceholder (i : Nat) (c : Char) (h : c ∈ charPlaceholder i) :
    c ∈ phChars := by
  unfold charPlaceholder at h
  have hlit : ∀ x ∈ "__CHAR_".data, x ∈ phChars := by decide
  have hlit2 : ∀ x ∈ "__".data, x ∈ phChars := by decide
  have hdig : ∀ x ∈ "0123456789".data, x ∈ phChars := by decide
  rcases List.mem_append.mp h with h1 | h2
  · rcases List.mem_append.mp h1 with h3 | h4
    · exact hlit c h3
    · exact hdig c (mem_natDigitsF_digits _ _ _ h4)
  · exact hlit2 c h2

theorem protectPass_prov (ph : Nat → List Char) (P : Char → Prop)
    (hph : ∀ i c, c ∈ ph i → P c) :
    ∀ ms line i, (∀ c ∈ line, P c) → (∀ m ∈ ms, ∀ c ∈ m, P c) →
      (∀ c ∈ (protectPass ph line ms i).1, P c) ∧
      (∀ e ∈ (protectPass ph line ms i).2, (∀ c ∈ e.1, P c) ∧ (∀ c ∈ e.2, P c)) := by
  intro ms
  induction ms with
  | nil =>
    intro line i hline _
    exact ⟨hline, by intro e he; cases he⟩
  | cons m ms ih =>
    intro line i hline hms
    have hline' : ∀ c ∈ replaceFirst line m (ph i), P c := by
      intro c hc
      rcases mem_replaceFirst line m (ph i) hc with h1 | h1
      · exact hline c h1
      · exact hph i c h1
    have hms' : ∀ m' ∈ ms, ∀ c ∈ m', P c := fun m' hm' => hms m' (List.mem_cons_of_mem m hm')
    obtain ⟨ih1, ih2⟩ := ih (replaceFirst line m (ph i)) (i + 1) hline' hms'
    constructor
    · exact ih1
    · intro e he
      rcases List.mem_cons.mp he with h1 | h2
      · subst h1
        exact ⟨fun c hc => hph i c hc, fun c hc => hms m (by simp) c hc⟩
      · exact ih2 e h2

theorem protect_strings_prov (line : List Char) :
    (∀ c ∈ (protect_strings line).1, c ∈ line ∨ c ∈ phChars) ∧
    (∀ e ∈ (protect_strings line).2, ∀ c ∈ e.2, c ∈ line ∨ c ∈ phChars) := by
  unfold protect_strings
  have hph1 : ∀ i c, c ∈ strPlaceholder i → c ∈ line ∨ c ∈ phChars :=
    fun i c hc => Or.inr (mem_strPlaceholder i c hc)
  have hph2 : ∀ i c, c ∈ charPlaceholder i → c ∈ line ∨ c ∈ phChars :=
    fun i c hc => Or.inr (mem_charPlaceholder i c hc)
  have hms1 : ∀ m ∈ findLits '"' line, ∀ c ∈ m, c ∈ line ∨ c ∈ phChars :=
    fun m hm c hc => Or.inl (mem_findLits '"' line.length line (Nat.le_refl _) m hm c hc)
  obtain ⟨h1, h2⟩ := protectPass_prov strPlaceholder
    (fun c => c ∈ line ∨ c ∈ phChars) hph1 (findLits '"' line) line 0
    (fun c hc => Or.inl hc) hms1
  have hms2 : ∀ m ∈ findLits '\'' (protectPass strPlaceholder line (findLits '"' line) 0).1,
      ∀ c ∈ m, c ∈ line ∨ c ∈ phChars :=
    fun m hm c hc => h1 c (mem_findLits '\'' _ _ (Nat.le_refl _) m hm c hc)
  obtain ⟨h3, h4⟩ := protectPass_prov charPlaceholder
    (fun c => c ∈ line ∨ c ∈ phChars) hph2 _ _ 0 h1 hms2
  constructor
  · exact h3
  · intro e he
    rcases List.mem_append.mp he with h5 | h5
    · exact (h2 e h5).2
    · exact (h4 e h5).2

theorem restore_prov (P : Char → Prop) :
    ∀ mp line, (∀ c ∈ line, P c) → (∀ e ∈ mp, ∀ c ∈ e.2, P c) →
      ∀ c ∈ restore_strings line mp, P c := by
  intro mp
  induction mp with
  | nil => intro line hline _ c hc; exact hline c hc
  | cons e mp ih =>
    intro line hline hmp c hc
    have hline' : ∀ c ∈ replaceAll line e.1 e.2, P c := by
      intro c hc
      rcases mem_replaceAll line e.1 e.2 hc with h1 | h1
      · exact hline c h1
      · exact hmp e (by simp) c h1
    exact ih (replaceAll line e.1 e.2) hline'
      (fun e' he' => hmp e' (List.mem_cons_of_mem e he')) c hc

theorem pline_chars_aux (line A : List Char) (hA : ∀ c ∈ A, c ∈ line ∨ c ∈ phChars) :
    ∀ c ∈ pyRstrip (restore_strings A (protect_strings line).2), c ∈ line ∨ c ∈ phChars :=
  fun c hc =>
    restore_prov _ (protect_strings line).2 A hA (protect_strings_prov line).2 c
      (mem_pyRstrip _ hc)

/-- A line accepted by `_process_line` is non-blank and made only of
characters of the input line and of placeholder tokens. -/
theorem process_line_some (line p : List Char) (f : Bool)
    (h : process_line line false = (some p, f)) :
    pyStrip p ≠ [] ∧ ∀ c ∈ p, c ∈ line ∨ c ∈ phChars := by
  have hp1 : ∀ c ∈ removeLineComment (protect_strings line).1, c ∈ line ∨ c ∈ phChars :=
    fun c hc => (protect_strings_prov line).1 c (mem_removeLineComment _ hc)
  cases h1 : findIdx2 '/' '*' (removeLineComment (protect_strings line).1) with
  | none =>
    simp only [process_line, if_neg Bool.false_ne_true, h1] at h
    split at h
    · simp at h
    · next hcond =>
      obtain ⟨hp, _⟩ := Prod.mk.injEq .. ▸ h
      cases hp
      exact ⟨hcond, pline_chars_aux line _ hp1⟩
  | some i =>
    cases h2 : findIdx2 '*' '/'
        ((removeLineComment (protect_strings line).1).drop (i + 2)) with
    | none =>
      simp only [process_line, if_neg Bool.false_ne_true, h1, h2] at h
      split at h
      · simp at h
      · next hcond =>
        obtain ⟨hp, _⟩ := Prod.mk.injEq .. ▸ h
        cases hp
        refine ⟨hcond, pline_chars_aux line _ ?_⟩
        intro c hc
        exact hp1 c (List.mem_of_mem_take hc)
    | some j =>
      simp only [process_line, if_neg Bool.false_ne_true, h1, h2] at h
      split at h
      · simp at h
      · next hcond =>
        obtain ⟨hp, _⟩ := Prod.mk.injEq .. ▸ h
        cases hp
        refine ⟨hcond, pline_chars_aux line _ ?_⟩
        intro c hc
        rcases List.mem_append.mp hc with h3 | h3
        · exact hp1 c (List.mem_of_mem_take h3)
        · exact hp1 c (List.mem_of_mem_drop h3)

theorem newline_not_phChars : ('\n' : Char) ∉ phChars := by decide

/-- One loop step preserves: empty buffer, and accumulated lines non-blank
and newline-free. -/
theorem rcStep_prov (st : RCState) (line : List Char)
    (hbuf : st.buffer = [])
    (hres : ∀ l ∈ st.res, pyStrip l ≠ [] ∧ '\n' ∉ l)
    (hline : '\n' ∉ line) :
    (rcStep st line).buffer = [] ∧
      ∀ l ∈ (rcStep st line).res, pyStrip l ≠ [] ∧ '\n' ∉ l := by
  have hgen : ∀ (input p : List Char) (f : Bool), '\n' ∉ input →
      process_line input false = (some p, f) → pyStrip p ≠ [] ∧ '\n' ∉ p := by
    intro input p f hin hp
    obtain ⟨hs, hchars⟩ := process_line_some input p f hp
    refine ⟨hs, fun hmem => ?_⟩
    rcases hchars '\n' hmem with h1 | h1
    · exact hin h1
    · exact newline_not_phChars h1
  unfold rcStep
  split
  · cases heq : findIdx2 '*' '/' line with
    | none => simp only [heq]; exact ⟨hbuf, hres⟩
    | some e =>
      simp only [heq, hbuf]
      by_cases hrem : pyStrip (line.drop (e + 2)) = []
      · rw [if_pos hrem]
        exact ⟨rfl, hres⟩
      · rw [if_neg hrem]
        cases hp : process_line (line.drop (e + 2)) false with
        | mk op fl =>
          cases op with
          | none =>
            simp only [hp]
            refine ⟨by simp, hres⟩
          | some p =>
            simp only [hp]
            have hpn : '\n' ∉ line.drop (e + 2) :=
              fun hm => hline (List.mem_of_mem_drop hm)
            have hgood := hgen _ p fl hpn hp
            refine ⟨by simp, ?_⟩
            intro l hl
            rcases List.mem_append.mp hl with h1 | h1
            · exact hres l h1
            · rw [List.mem_singleton] at h1
              subst h1
              exact hgood
  · next hml =>
    have hml' : st.inML = false := by
      cases hv : st.inML
      · rfl
      · exact absurd hv hml
    rw [hml']
    cases hp : process_line line false with
    | mk op fl =>
      cases op with
      | none =>
        simp only [hp]
        exact ⟨hbuf, hres⟩
      | some p =>
        simp only [hp]
        have hgood := hgen line p fl hline hp
        constructor
        · exact hbuf
        · intro l hl
          rcases List.mem_append.mp hl with h1 | h1
          · exact hres l h1
          · rw [List.mem_singleton] at h1
            subst h1
            exact hgood

theorem rcFold_prov (lines : List (List Char)) :
    ∀ st, st.buffer = [] → (∀ l ∈ st.res, pyStrip l ≠ [] ∧ '\n' ∉ l) →
      (∀ l ∈ lines, '\n' ∉ l) →
      ∀ l ∈ (lines.foldl rcStep st).res, pyStrip l ≠ [] ∧ '\n' ∉ l := by
  induction lines with
  | nil => intro st _ hres _; exact hres
  | cons x rest ih =>
    intro st hbuf hres hlines
    obtain ⟨hbuf', hres'⟩ := rcStep_prov st x hbuf hres (hlines x (by simp))
    exact ih (rcStep st x) hbuf' hres'
      (fun l hl => hlines l (List.mem_cons_of_mem x hl))

/-! ## Claims about `remove_comments.py` -/

/-- C5: for every input text that is empty or consists only of whitespace
characters, `CommentRemover.remove_comments` returns the input unchanged,
with no transformation applied. -/
theorem claim5_whitespace_input_unchanged (code : String)
    (h : pyStrip code.data = []) : remove_comments code = code := by
  unfold remove_comments removeCommentsL
  rw [if_pos h]

/-- Witness for C5 at the concrete whitespace-only input `" \t\n "`. -/
theorem claim5_witness :
    pyStrip " \t\n ".data = [] ∧ remove_comments " \t\n " = " \t\n " :=
  ⟨by decide, claim5_whitespace_input_unchanged " \t\n " (by decide)⟩

/-- C2 counterexample: in the input below the second line closes the block
comment and its remainder ` x /* y` opens a new unterminated `/*`, yet the
following line `z` appears in the output instead of being discarded —
`remove_comments` drops the flag computed for the remainder (the source
binds it to `_`). -/
theorem claim2_counterexample :
    remove_comments "/* open\nclose */ x /* y\nz\nend */ w" = " x\nz\nend */ w" ∧
      "z".data ∈ splitNl (remove_comments "/* open\nclose */ x /* y\nz\nend */ w").data := by
  constructor
  · decide
  · decide

/-- C2 (amended): when a line closes a carried block comment, the remainder
after `*/` is run through the normal single-line procedure, but the
inside-block-comment flag that procedure computes is discarded: after such
a line the carried flag is always false, even when the remainder contains
a `/*` with no matching `*/`. -/
theorem claim2_flag_cleared_after_close (st : RCState) (line : List Char)
    (e : Nat) (hin : st.inML = true) (hfind : findIdx2 '*' '/' line = some e) :
    (rcStep st line).inML = false := by
  unfold rcStep
  rw [if_pos hin]
  simp only [hfind]
  by_cases hrem : pyStrip (line.drop (e + 2)) = []
  · rw [if_pos hrem]
  · rw [if_neg hrem]
    cases hp : process_line (line.drop (e + 2)) false with
    | mk op fl =>
      cases op with
      | none => simp only [hp]
      | some p =>
        simp only [hp]
        cases st.buffer <;> rfl

/-- Witness for C2 (amended): a concrete carried-comment state and a line
whose remainder after `*/` opens an unterminated `/*`. -/
theorem claim2_witness :
    (rcStep ⟨[], true, []⟩ "x*/ a /* b".data).inML = false :=
  claim2_flag_cleared_after_close ⟨[], true, []⟩ "x*/ a /* b".data 1 rfl (by decide)

/-- C3 counterexample: the whitespace-only input `" "` is returned
unchanged by `remove_comments` (early return), so the output consists of a
single whitespace-only line. -/
theorem claim3_counterexample :
    remove_comments " " = " " ∧
      splitNl (remove_comments " ").data = [" ".data] ∧ isBlank " ".data = true := by
  refine ⟨by decide, by decide, by decide⟩

/-- C3 (amended): for every input text that is not empty and not
whitespace-only, the output of `remove_comments` is either the empty text
or has no line that is empty or whitespace-only.  (For whitespace-only
input the early return reproduces the input, as the counterexample
shows.) -/
theorem claim3_no_blank_output_lines (code : List Char) (h : pyStrip code ≠ []) :
    removeCommentsL code = [] ∨
      ∀ l ∈ splitNl (removeCommentsL code), pyStrip l ≠ [] := by
  have hprov := rcFold_prov (splitNl code) ⟨[], false, []⟩ rfl
    (by intro l hl; cases hl) (fun l hl => splitNl_no_nl code l hl)
  unfold removeCommentsL
  rw [if_neg h]
  cases hresd : ((splitNl code).foldl rcStep ⟨[], false, []⟩).res with
  | nil => exact Or.inl rfl
  | cons a t =>
    right
    rw [← hresd]
    rw [splitNl_joinNl _ (by rw [hresd]; simp)
      (fun s hs => (hprov s hs).2)]
    intro l hl
    exact (hprov l hl).1

/-- Witness for C3 (amended) at a concrete input with comments and a blank
line. -/
theorem claim3_witness :
    removeCommentsL "a; // c\n\nb;".data = [] ∨
      ∀ l ∈ splitNl (removeCommentsL "a; // c\n\nb;".data), pyStrip l ≠ [] :=
  claim3_no_blank_output_lines "a; // c\n\nb;".data (by decide)

/-! ## Lemmas about `parse_section_sizes` -/

theorem dictLookup_update_self (d : List (List Char × Option (List Char × Nat)))
    (n : List Char) (v : List Char × Nat) (h : (dictLookup d n).isSome = true) :
    dictLookup (dictUpdate d n v) n = some (some v) := by
  induction d with
  | nil => simp [dictLookup] at h
  | cons e r ih =>
    by_cases he : e.1 = n
    · simp [dictUpdate, dictLookup, he]
    · simp only [dictLookup, if_neg he] at h
      simp only [dictUpdate, List.map_cons, if_neg he, dictLookup]
      exact ih h

theorem dictLookup_update_other (d : List (List Char × Option (List Char × Nat)))
    (m n : List Char) (v : List Char × Nat) (h : ¬m = n) :
    dictLookup (dictUpdate d m v) n = dictLookup d n := by
  induction d with
  | nil => rfl
  | cons e r ih =>
    by_cases he : e.1 = m
    · simp only [dictUpdate, List.map_cons, if_pos he, dictLookup]
      rw [if_neg (he ▸ h), if_neg (he ▸ h)]
      exact ih
    · simp only [dictUpdate, List.map_cons, if_neg he, dictLookup]
      by_cases hn : e.1 = n
      · rw [if_pos hn, if_pos hn]
      · rw [if_neg hn, if_neg hn]
        exact ih

theorem pssStep_isSome (d : List (List Char × Option (List Char × Nat)))
    (line n : List Char) (h : (dictLookup d n).isSome = true) :
    (dictLookup (pssStep d line) n).isSome = true := by
  unfold pssStep
  cases pssSearch line with
  | none => exact h
  | some g =>
    simp only
    split
    · next hg =>
      by_cases hm : g.1 = n
      · subst hm
        rw [dictLookup_update_self d g.1 _ h]
        rfl
      · rw [dictLookup_update_other d g.1 n _ hm]
        exact h
    · exact h

theorem pssFold_lookup (lines : List (List Char)) :
    ∀ d n, (dictLookup d n).isSome = true →
      dictLookup (lines.foldl pssStep d) n =
        match lastMatch lines n with
        | some hx => some (some (hx, hexToNat hx))
        | none => dictLookup d n := by
  induction lines with
  | nil => intro d n _; rfl
  | cons l rest ih =>
    intro d n h
    have hstep := pssStep_isSome d l n h
    rw [List.foldl_cons, ih (pssStep d l) n hstep]
    cases hlm : lastMatch rest n with
    | some hx => simp only [lastMatch, hlm]
    | none =>
      simp only [lastMatch, hlm]
      unfold matchFor pssStep
      cases hs : pssSearch l with
      | none => simp
      | some g =>
        simp only
        by_cases hg : g.1 = n
        · subst hg
          rw [if_pos rfl, if_pos h]
          exact dictLookup_update_self d g.1 _ h
        · rw [if_neg hg]
          split
          · exact dictLookup_update_other d g.1 n _ hg
          · rfl

theorem dictLookup_map_init (ts : List (List Char)) (n : List Char) (h : n ∈ ts) :
    dictLookup (ts.map fun m => (m, none)) n = some none := by
  induction ts with
  | nil => cases h
  | cons t ts ih =>
    simp only [List.map_cons, dictLookup]
    by_cases ht : t = n
    · rw [if_pos ht]
    · rw [if_neg ht]
      rcases List.mem_cons.mp h with h1 | h1
      · exact absurd h1.symm ht
      · exact ih h1

theorem dictLookup_init (n : List Char) (h : n ∈ targetNames) :
    dictLookup initTargets n = some none :=
  dictLookup_map_init targetNames n h

theorem dictUpdate_keys (d : List (List Char × Option (List Char × Nat)))
    (n : List Char) (v : List Char × Nat) :
    (dictUpdate d n v).map Prod.fst = d.map Prod.fst := by
  induction d with
  | nil => rfl
  | cons e r ih =>
    simp only [dictUpdate, List.map_cons] at *
    by_cases he : e.1 = n
    · rw [if_pos he]
      simp [ih]
    · rw [if_neg he]
      simp [ih]

theorem pssStep_keys (d : List (List Char × Option (List Char × Nat)))
    (line : List Char) : (pssStep d line).map Prod.fst = d.map Prod.fst := by
  unfold pssStep
  cases pssSearch line with
  | none => rfl
  | some g =>
    simp only
    split
    · exact dictUpdate_keys d g.1 _
    · rfl

theorem pssFold_keys (lines : List (List Char)) :
    ∀ d, ((lines.foldl pssStep d).map Prod.fst) = d.map Prod.fst := by
  induction lines with
  | nil => intro d; rfl
  | cons l rest ih =>
    intro d
    rw [List.foldl_cons, ih (pssStep d l), pssStep_keys]

theorem initTargets_keys : initTargets.map Prod.fst = targetNames := by decide

theorem lastMatch_append (xs ys : List (List Char)) (n : List Char) :
    lastMatch (xs ++ ys) n =
      match lastMatch ys n with
      | some hx => some hx
      | none => lastMatch xs n := by
  induction xs with
  | nil =>
    rw [List.nil_append]
    cases lastMatch ys n <;> rfl
  | cons x xs ih =>
    have hstep : lastMatch (x :: (xs ++ ys)) n =
        match lastMatch (xs ++ ys) n with
        | some h => some h
        | none => matchFor n x := rfl
    have hstep2 : lastMatch (x :: xs) n =
        match lastMatch xs n with
        | some h => some h
        | none => matchFor n x := rfl
    rw [List.cons_append, hstep, ih, hstep2]
    cases lastMatch ys n <;> cases lastMatch xs n <;> rfl

theorem lastMatch_none (lines : List (List Char)) (n : List Char)
    (h : ∀ l ∈ lines, matchFor n l = none) : lastMatch lines n = none := by
  induction lines with
  | nil => rfl
  | cons l rest ih =>
    simp only [lastMatch, ih (fun s hs => h s (List.mem_cons_of_mem l hs))]
    exact h l (by simp)

/-! ## Claims about `pss_resource.py` -/

/-- C8: when several report lines match the column pattern, for each target
name the recorded value comes from the last matching line in source order,
overwriting every earlier match: the lookup equals the `lastMatch` of the
report's lines (and is "not found" when no line matches). -/
theorem claim8_last_match_wins (report : List Char) (n : List Char)
    (h : n ∈ targetNames) :
    dictLookup (parse_section_sizes report) n =
      match lastMatch (splitNl report) n with
      | some hx => some (some (hx, hexToNat hx))
      | none => some none := by
  unfold parse_section_sizes
  have hinit : dictLookup initTargets n = some none := dictLookup_init n h
  rw [pssFold_lookup (splitNl report) initTargets n (by rw [hinit]; rfl)]
  cases lastMatch (splitNl report) n
  · simp [hinit]
  · rfl

/-- Witness for C8: a report with two `.bss` lines; the later size `0aa`
(170) overwrites the earlier `058`. -/
theorem claim8_witness :
    dictLookup (parse_section_sizes "[ 1] .bss A 0 0 058\n[ 2] .bss A 0 0 0aa".data)
        ".bss".data = some (some ("0aa".data, 170)) := by
  rw [claim8_last_match_wins _ ".bss".data (by decide)]
  decide

/-- C9: the result of `parse_section_sizes` always has exactly the fixed
target set as its keys, and a target name matched by no line of the report
is mapped to the "not found" value `None`, with no exception raised. -/
theorem claim9_absent_target_not_found (report : List Char) :
    (parse_section_sizes report).map Prod.fst = targetNames ∧
      ∀ n ∈ targetNames, (∀ l ∈ splitNl report, matchFor n l = none) →
        dictLookup (parse_section_sizes report) n = some none := by
  constructor
  · unfold parse_section_sizes
    rw [pssFold_keys, initTargets_keys]
  · intro n hn hnone
    unfold parse_section_sizes
    rw [pssFold_lookup _ _ n (by rw [dictLookup_init n hn]; rfl)]
    rw [lastMatch_none _ _ hnone]
    exact dictLookup_init n hn

/-- Witness for C9 at a report with no matching line. -/
theorem claim9_witness :
    dictLookup (parse_section_sizes "hello\nworld".data) ".bss".data = some none :=
  (claim9_absent_target_not_found "hello\nworld".data).2 ".bss".data
    (by decide) (by decide)

/-- The sample report line quoted by the specification. -/
def sampleLine : List Char :=
  "[ 1] .ramVectors       NOBITS          20001000 001000 000158 00  WA  0   0 512".data

/-- C7 counterexample: a report that contains the sample line but also a
later matching `.ramVectors` line maps `.ramVectors` to the later size
(`"0aa"`, 170), not to `("000158", 344)` — last match wins, so the claim
quantified over *every* report containing the line is false. -/
theorem claim7_counterexample :
    sampleLine ∈
        splitNl ("[ 1] .ramVectors       NOBITS          20001000 001000 000158 00  WA  0   0 512\n[ 2] .ramVectors X 0 0 0aa").data ∧
      dictLookup
        (parse_section_sizes
          ("[ 1] .ramVectors       NOBITS          20001000 001000 000158 00  WA  0   0 512\n[ 2] .ramVectors X 0 0 0aa").data)
        ".ramVectors".data = some (some ("0aa".data, 170)) ∧
      ¬dictLookup
        (parse_section_sizes
          ("[ 1] .ramVectors       NOBITS          20001000 001000 000158 00  WA  0   0 512\n[ 2] .ramVectors X 0 0 0aa").data)
        ".ramVectors".data = some (some ("000158".data, 344)) := by
  refine ⟨by decide, by decide, by decide⟩

/-- C7 (amended): for every report one of whose lines is the sample line
and in which no *later* line matches the pattern with name `.ramVectors`,
`parse_section_sizes` maps `.ramVectors` to the hex string `"000158"` and
the integer `344 = 0x158`. -/
theorem claim7_sample_line (report : List Char) (pre post : List (List Char))
    (hsplit : splitNl report = pre ++ sampleLine :: post)
    (hpost : ∀ l ∈ post, matchFor ".ramVectors".data l = none) :
    dictLookup (parse_section_sizes report) ".ramVectors".data =
      some (some ("000158".data, 344)) := by
  unfold parse_section_sizes
  rw [pssFold_lookup _ _ _ (by rw [dictLookup_init _ (by decide)]; rfl), hsplit,
    lastMatch_append]
  have h1 : lastMatch (sampleLine :: post) ".ramVectors".data =
      some "000158".data := by
    have hstep : lastMatch (sampleLine :: post) ".ramVectors".data =
        match lastMatch post ".ramVectors".data with
        | some h => some h
        | none => matchFor ".ramVectors".data sampleLine := rfl
    rw [hstep, lastMatch_none post _ hpost]
    decide
  rw [h1]
  show some (some ("000158".data, hexToNat "000158".data)) =
    some (some ("000158".data, 344))
  decide

/-- Witness for C7 (amended): the report consisting of the sample line
alone. -/
theorem claim7_witness :
    dictLookup (parse_section_sizes sampleLine) ".ramVectors".data =
      some (some ("000158".data, 344)) :=
  claim7_sample_line sampleLine [] [] (by decide)
    (fun l hl => absurd hl (List.not_mem_nil l))

theorem takeCls_spec (p : Char → Bool) (l : List Char)
    (pr : List Char × List Char) (h : takeCls p l = some pr) :
    pr.1 = l.takeWhile p ∧ pr.1 ≠ [] := by
  unfold takeCls at h
  split at h
  · cases h
  · next hne =>
    cases h
    exact ⟨rfl, hne⟩

theorem pssAfterIndex_hex (r2 : List Char) (pr : List Char × List Char)
    (h : pssAfterIndex r2 = some pr) : pr.2 ≠ [] ∧ pr.2.all isHexDig = true := by
  unfold pssAfterIndex at h
  simp only [Option.bind_eq_some] at h
  obtain ⟨r3, _, h⟩ := h
  obtain ⟨nmp, _, h⟩ := h
  obtain ⟨r4, _, h⟩ := h
  obtain ⟨typ, _, h⟩ := h
  obtain ⟨r5, _, h⟩ := h
  obtain ⟨a1, _, h⟩ := h
  obtain ⟨r6, _, h⟩ := h
  obtain ⟨a2, _, h⟩ := h
  obtain ⟨r7, _, h⟩ := h
  obtain ⟨sz, hsz, h⟩ := h
  cases h
  obtain ⟨hts, htne⟩ := takeCls_spec isHexDig r7 sz hsz
  refine ⟨htne, ?_⟩
  show sz.1.all isHexDig = true
  rw [hts, List.all_eq_true]
  intro c hc
  exact List.mem_takeWhile_imp hc

theorem pssMatchAt_hex (l : List Char) (pr : List Char × List Char)
    (h : pssMatchAt l = some pr) : pr.2 ≠ [] ∧ pr.2.all isHexDig = true := by
  cases l with
  | nil => cases h
  | cons c r0 =>
    rw [show pssMatchAt (c :: r0) =
        if c = '[' then pssAfterBracket (r0.dropWhile pyIsSpace) else none
      from rfl] at h
    split at h
    · unfold pssAfterBracket at h
      simp only [Option.bind_eq_some] at h
      obtain ⟨d1, hd1, h⟩ := h
      obtain ⟨ds, dr⟩ := d1
      cases dr with
      | nil => cases h
      | cons c2 r2 =>
        have h2 : (if c2 = ']' then pssAfterIndex r2 else none) = some pr := h
        split at h2
        · exact pssAfterIndex_hex r2 pr h2
        · cases h2
    · cases h

theorem pssSearch_hex (l : List Char) :
    ∀ nm hx, pssSearch l = some (nm, hx) → hx ≠ [] ∧ hx.all isHexDig = true := by
  induction l with
  | nil => intro nm hx h; cases h
  | cons c r ih =>
    intro nm hx h
    have hstep : pssSearch (c :: r) =
        match pssMatchAt (c :: r) with
        | some g => some g
        | none => pssSearch r := rfl
    rw [hstep] at h
    cases hm : pssMatchAt (c :: r) with
    | some g =>
      rw [hm] at h
      cases h
      exact pssMatchAt_hex (c :: r) (nm, hx) hm
    | none =>
      rw [hm] at h
      exact ih nm hx h

/-- C10: the captured size field of every line matched by the pattern
consists only of hexadecimal digits (and is nonempty), so `int(size_hex,
16)` cannot raise; and an unreadable file (the `except` paths of the
source) yields the no-result value `None` rather than an exception or a
partial mapping. -/
theorem claim10_parser_total :
    (∀ l nm hx, pssSearch l = some (nm, hx) → hx ≠ [] ∧ hx.all isHexDig = true) ∧
      parse_section_sizes_file none = none :=
  ⟨fun l => pssSearch_hex l, rfl⟩

/-- Witness for C10 at the sample line. -/
theorem claim10_witness :
    "000158".data ≠ [] ∧ "000158".data.all isHexDig = true :=
  claim10_parser_total.1 sampleLine ".ramVectors".data "000158".data (by decide)

/-! ## Lemmas for comment-free and quote-free lines -/

theorem occursSub_nil_pat (l : List Char) : occursSub [] l = true := by
  cases l <;> simp [occursSub, strStarts]

theorem strStarts_append_right (p : List Char) :
    ∀ x y, strStarts p x = true → strStarts p (x ++ y) = true := by
  induction p with
  | nil => intro x y _; rfl
  | cons a p ih =>
    intro x y h
    cases x with
    | nil => simp [strStarts] at h
    | cons c r =>
      simp only [strStarts, Bool.and_eq_true] at h ⊢
      exact ⟨h.1, ih r y h.2⟩

theorem occursSub_append_right (p : List Char) :
    ∀ s t, occursSub p s = true → occursSub p (s ++ t) = true := by
  intro s
  induction s with
  | nil =>
    intro t h
    simp only [occursSub] at h
    rw [(strStarts_nil_iff p).mp h]
    simp [occursSub_nil_pat]
  | cons c r ih =>
    intro t h
    simp only [occursSub, Bool.or_eq_true] at h ⊢
    rcases h with h1 | h1
    · exact Or.inl (strStarts_append_right p (c :: r) t h1)
    · exact Or.inr (ih t h1)

theorem occursSub_append_left (p : List Char) :
    ∀ u s, occursSub p s = true → occursSub p (u ++ s) = true := by
  intro u
  induction u with
  | nil => intro s h; exact h
  | cons c r ih =>
    intro s h
    simp only [List.cons_append, occursSub, Bool.or_eq_true]
    exact Or.inr (ih s h)

theorem occursSub_infix (p s u v : List Char) (h : occursSub p s = true) :
    occursSub p (u ++ s ++ v) = true := by
  rw [List.append_assoc]
  exact occursSub_append_left p u (s ++ v) (occursSub_append_right p s v h)

theorem findLits_none (q : Char) :
    ∀ l, (∀ c ∈ l, ¬c = q) → findLits q l = [] := by
  intro l
  induction l with
  | nil => intro _; rfl
  | cons c r ih =>
    intro h
    rw [findLits_cons_ne q c r (h c (by simp))]
    exact ih (fun c hc => h c (List.mem_cons_of_mem _ hc))

theorem protect_strings_clean (l : List Char)
    (hq : ∀ c ∈ l, ¬c = '"') (hs : ∀ c ∈ l, ¬c = '\'') :
    protect_strings l = (l, []) := by
  simp only [protect_strings, findLits_none '"' l hq, protectPass,
    findLits_none '\'' l hs, List.nil_append]

theorem removeLineComment_id :
    ∀ l, occursSub ['/', '/'] l = false → removeLineComment l = l := by
  intro l
  induction l with
  | nil => intro _; rfl
  | cons a t ih =>
    intro h
    cases t with
    | nil => rfl
    | cons b r =>
      have hstep : occursSub ['/', '/'] (a :: b :: r) =
          (strStarts ['/', '/'] (a :: b :: r) || occursSub ['/', '/'] (b :: r)) := rfl
      rw [hstep, Bool.or_eq_false_iff] at h
      obtain ⟨h1, h2⟩ := h
      have hnab : ¬(a = '/' ∧ b = '/') := by
        intro hab
        obtain ⟨ha, hb⟩ := hab
        subst ha
        subst hb
        simp [strStarts] at h1
      simp only [removeLineComment, if_neg hnab]
      rw [ih h2]

theorem findIdx2_none (a b : Char) :
    ∀ l, occursSub [a, b] l = false → findIdx2 a b l = none := by
  intro l
  induction l with
  | nil => intro _; rfl
  | cons c t ih =>
    intro h
    cases t with
    | nil => rfl
    | cons d r =>
      have hstep : occursSub [a, b] (c :: d :: r) =
          (strStarts [a, b] (c :: d :: r) || occursSub [a, b] (d :: r)) := rfl
      rw [hstep, Bool.or_eq_false_iff] at h
      obtain ⟨h1, h2⟩ := h
      have hncd : ¬(c = a ∧ d = b) := by
        intro hcd
        obtain ⟨hc, hd⟩ := hcd
        subst hc
        subst hd
        simp [strStarts] at h1
      simp only [findIdx2, if_neg hncd]
      rw [ih h2]
      rfl

/-- On a line with no quote characters and no `//` or `/*`, the single-line
procedure only trims trailing whitespace (and drops the line if blank). -/
theorem process_line_clean (l : List Char)
    (hq : ∀ c ∈ l, ¬c = '"') (hs : ∀ c ∈ l, ¬c = '\'')
    (h1 : occursSub "//".data l = false) (h2 : occursSub "/*".data l = false) :
    process_line l false =
      ((if isBlank l = true then none else some (pyRstrip l)), false) := by
  have hrl : removeLineComment l = l := removeLineComment_id l (by exact h1)
  have hfi : findIdx2 '/' '*' l = none := findIdx2_none '/' '*' l (by exact h2)
  simp only [process_line, if_neg Bool.false_ne_true, protect_strings_clean l hq hs,
    hrl, hfi, restore_strings, List.foldl_nil]
  by_cases hb : isBlank l = true
  · rw [if_pos ((pyStrip_pyRstrip_eq_nil_iff l).mpr hb), if_pos hb]
  · rw [if_neg (fun hx => hb ((pyStrip_pyRstrip_eq_nil_iff l).mp hx)), if_neg hb]

theorem rcStep_clean (res buf : List (List Char)) (x : List Char)
    (hx : process_line x false =
      ((if isBlank x = true then none else some (pyRstrip x)), false)) :
    rcStep ⟨res, false, buf⟩ x =
      ⟨res ++ (if isBlank x = true then [] else [pyRstrip x]), false, buf⟩ := by
  unfold rcStep
  rw [if_neg (by exact Bool.false_ne_true)]
  simp only [hx]
  by_cases hb : isBlank x = true
  · simp [hb]
  · simp [hb]

theorem rcFold_clean (lines : List (List Char)) :
    ∀ res buf,
      (∀ l ∈ lines, process_line l false =
        ((if isBlank l = true then none else some (pyRstrip l)), false)) →
      lines.foldl rcStep ⟨res, false, buf⟩ =
        ⟨res ++ lines.filterMap
            (fun l => if isBlank l = true then none else some (pyRstrip l)),
          false, buf⟩ := by
  induction lines with
  | nil => intro res buf _; simp
  | cons x rest ih =>
    intro res buf hl
    rw [List.foldl_cons, rcStep_clean res buf x (hl x (by simp))]
    rw [ih _ buf (fun l hm => hl l (List.mem_cons_of_mem x hm))]
    by_cases hb : isBlank x = true
    · simp [hb, List.filterMap_cons]
    · simp [hb, List.filterMap_cons]

/-- C4 counterexample: the input `__STRING_0__ "a"` contains no `//` and no
`/*...*/` comment, yet `remove_comments` corrupts it to `"a" "a"` instead
of returning it unchanged: literal protection replaces the string `"a"` by
the placeholder `__STRING_0__` and restoration substitutes both
occurrences. -/
theorem claim4_counterexample :
    occursSub "//".data "__STRING_0__ \"a\"".data = false ∧
      occursSub "/*".data "__STRING_0__ \"a\"".data = false ∧
      removeCommentsL "__STRING_0__ \"a\"".data = "\"a\" \"a\"".data ∧
      ¬removeCommentsL "__STRING_0__ \"a\"".data =
        joinNl ((splitNl "__STRING_0__ \"a\"".data).filterMap
          (fun l => if isBlank l = true then none else some (pyRstrip l))) := by
  refine ⟨by decide, by decide, by decide, by decide⟩

/-- C4 (amended): on input that is not whitespace-only, contains no quote
or apostrophe characters anywhere, and no `//` or `/*` substring,
`remove_comments` returns the text unchanged except for removal of
trailing whitespace on each line and removal of blank lines.  (Lines
containing string literals are not always preserved: placeholder
collisions can corrupt them, as the counterexample shows.) -/
theorem claim4_idempotent_on_comment_free (code : List Char)
    (hws : pyStrip code ≠ [])
    (hq : ∀ c ∈ code, ¬c = '"') (hs : ∀ c ∈ code, ¬c = '\'')
    (h1 : occursSub "//".data code = false)
    (h2 : occursSub "/*".data code = false) :
    removeCommentsL code =
      joinNl ((splitNl code).filterMap
        (fun l => if isBlank l = true then none else some (pyRstrip l))) := by
  unfold removeCommentsL
  rw [if_neg hws]
  have hlines : ∀ l ∈ splitNl code, process_line l false =
      ((if isBlank l = true then none else some (pyRstrip l)), false) := by
    intro l hl
    obtain ⟨u, v, huv⟩ := splitNl_infix code l hl
    have hmem : ∀ c ∈ l, c ∈ code := by
      intro c hc
      rw [huv]
      exact List.mem_append.mpr (Or.inl (List.mem_append.mpr (Or.inr hc)))
    refine process_line_clean l (fun c hc => hq c (hmem c hc))
      (fun c hc => hs c (hmem c hc)) ?_ ?_
    · cases ho : occursSub "//".data l
      · rfl
      · rw [huv, occursSub_infix _ _ u v ho] at h1
        cases h1
    · cases ho : occursSub "/*".data l
      · rfl
      · rw [huv, occursSub_infix _ _ u v ho] at h2
        cases h2
  rw [rcFold_clean (splitNl code) [] [] hlines]
  simp

/-- First occurrence of a two-character pattern at a known position: the
prefix `a` is pattern-free, and a straddling occurrence would need the
pattern's two characters to be equal. -/
theorem findIdx2_at (x y : Char) (hxy : ¬x = y) :
    ∀ a rest, occursSub [x, y] a = false →
      findIdx2 x y (a ++ x :: y :: rest) = some a.length := by
  intro a
  induction a with
  | nil =>
    intro rest _
    simp [findIdx2]
  | cons c t ih =>
    intro rest h
    cases t with
    | nil =>
      have hcx : ¬(c = x ∧ x = y) := fun hc => hxy hc.2
      simp [findIdx2, hcx]
    | cons dd t' =>
      have hstep : occursSub [x, y] (c :: dd :: t') =
          (strStarts [x, y] (c :: dd :: t') || occursSub [x, y] (dd :: t')) := rfl
      rw [hstep, Bool.or_eq_false_iff] at h
      obtain ⟨h1, h2⟩ := h
      have hncd : ¬(c = x ∧ dd = y) := by
        intro hcd
        obtain ⟨hc, hd⟩ := hcd
        subst hc
        subst hd
        simp [strStarts] at h1
      show findIdx2 x y (c :: dd :: (t' ++ x :: y :: rest)) = some (c :: dd :: t').length
      simp only [findIdx2, if_neg hncd]
      rw [show dd :: (t' ++ x :: y :: rest) = (dd :: t') ++ x :: y :: rest from rfl,
        ih rest h2]
      rfl

/-- `remove_comments` on a single line that survives processing. -/
theorem removeComments_single_line (l out : List Char) (f : Bool)
    (hnl : '\n' ∉ l) (hws : pyStrip l ≠ [])
    (hp : process_line l false = (some out, f)) :
    removeCommentsL l = out := by
  unfold removeCommentsL
  rw [if_neg hws, splitNl_nonNl l hnl, List.foldl_cons, List.foldl_nil]
  simp only [rcStep, Bool.false_eq_true, if_false, hp]
  rfl

/-- On a quote-free, `//`-free line holding two complete block comments,
`_process_line` removes only the first one: the single `find('/*')` /
`find('*/')` pair is never re-run on the spliced line. -/
theorem process_line_two_comments (a b c d e : List Char)
    (hq : ∀ ch ∈ a ++ ('/' :: '*' :: (b ++ ('*' :: '/' :: (c ++ ('/' :: '*' :: (d ++ ('*' :: '/' :: e))))))),
      ¬ch = '"')
    (hs : ∀ ch ∈ a ++ ('/' :: '*' :: (b ++ ('*' :: '/' :: (c ++ ('/' :: '*' :: (d ++ ('*' :: '/' :: e))))))),
      ¬ch = '\'')
    (hline : occursSub "//".data
      (a ++ ('/' :: '*' :: (b ++ ('*' :: '/' :: (c ++ ('/' :: '*' :: (d ++ ('*' :: '/' :: e)))))))) = false)
    (ha : occursSub "/*".data a = false)
    (hb : occursSub "*/".data b = false) :
    process_line
        (a ++ ('/' :: '*' :: (b ++ ('*' :: '/' :: (c ++ ('/' :: '*' :: (d ++ ('*' :: '/' :: e))))))))
        false =
      (some (a ++ (c ++ ('/' :: '*' :: (d ++ ('*' :: '/' :: pyRstrip e))))), false) := by
  set L := a ++ ('/' :: '*' :: (b ++ ('*' :: '/' :: (c ++ ('/' :: '*' :: (d ++ ('*' :: '/' :: e)))))))
    with hL
  have hprot : protect_strings L = (L, []) := protect_strings_clean L hq hs
  have hrl : removeLineComment L = L := removeLineComment_id L (by exact hline)
  have hf1 : findIdx2 '/' '*' L = some a.length := by
    rw [hL]
    exact findIdx2_at '/' '*' (by decide) a _ ha
  have hdrop1 : L.drop (a.length + 2) =
      b ++ ('*' :: '/' :: (c ++ ('/' :: '*' :: (d ++ ('*' :: '/' :: e))))) := by
    rw [hL, show a ++ ('/' :: '*' :: (b ++ ('*' :: '/' :: (c ++ ('/' :: '*' :: (d ++ ('*' :: '/' :: e)))))))
        = (a ++ ['/', '*']) ++ (b ++ ('*' :: '/' :: (c ++ ('/' :: '*' :: (d ++ ('*' :: '/' :: e))))))
      by simp]
    exact List.drop_left' (by simp)
  have hf2 : findIdx2 '*' '/' (L.drop (a.length + 2)) = some b.length := by
    rw [hdrop1]
    exact findIdx2_at '*' '/' (by decide) b _ hb
  have htake : L.take a.length = a := by
    rw [hL]
    exact List.take_left' rfl
  have hdrop2 : L.drop (a.length + 2 + b.length + 2) =
      c ++ ('/' :: '*' :: (d ++ ('*' :: '/' :: e))) := by
    rw [hL, show a ++ ('/' :: '*' :: (b ++ ('*' :: '/' :: (c ++ ('/' :: '*' :: (d ++ ('*' :: '/' :: e)))))))
        = ((a ++ ['/', '*']) ++ (b ++ ['*', '/'])) ++ (c ++ ('/' :: '*' :: (d ++ ('*' :: '/' :: e))))
      by simp]
    refine List.drop_left' ?_
    simp only [List.length_append, List.length_cons, List.length_nil]
    omega
  have hrstrip : pyRstrip (a ++ (c ++ ('/' :: '*' :: (d ++ ('*' :: '/' :: e))))) =
      a ++ (c ++ ('/' :: '*' :: (d ++ ('*' :: '/' :: pyRstrip e)))) := by
    rw [show a ++ (c ++ ('/' :: '*' :: (d ++ ('*' :: '/' :: e))))
        = ((a ++ c ++ ('/' :: '*' :: (d ++ ['*']))) ++ ['/']) ++ e by simp]
    rw [pyRstrip_append _ e (pyRstrip_concat_of_not_space _ '/' (by decide))]
    simp
  have hmem : ('/' : Char) ∈ a ++ (c ++ ('/' :: '*' :: (d ++ ('*' :: '/' :: pyRstrip e)))) := by
    refine List.mem_append.mpr (Or.inr ?_)
    simp
  simp only [process_line, if_neg Bool.false_ne_true, hprot, hrl, hf1, hf2,
    htake, hdrop2, restore_strings, List.foldl_nil, hrstrip]
  rw [if_neg (pyStrip_ne_nil_of_mem hmem (by decide))]

/-! ## Lemmas for literal protection on a line with one string literal -/

theorem strStarts_append_self (p t : List Char) : strStarts p (p ++ t) = true := by
  induction p with
  | nil => rfl
  | cons a p ih => simp [strStarts, ih]

theorem litScan_closes (q : Char) :
    ∀ content post, (∀ ch ∈ content, ¬ch = q ∧ ¬ch = '\\') →
      litScan q (content ++ (q :: post)) = some (content ++ [q], post) := by
  intro content
  induction content with
  | nil =>
    intro post _
    cases post with
    | nil => simp [litScan]
    | cons p ps => simp [litScan]
  | cons ch rest ih =>
    intro post h
    have hch := h ch (by simp)
    have htl : ∀ x ∈ rest, ¬x = q ∧ ¬x = '\\' :=
      fun x hx => h x (List.mem_cons_of_mem ch hx)
    cases hrw : rest ++ (q :: post) with
    | nil => exact absurd hrw (by simp)
    | cons d r =>
      show litScan q (ch :: (rest ++ (q :: post))) = _
      rw [hrw]
      rw [show litScan q (ch :: d :: r)
          = if ch = q then some ([q], d :: r)
            else if ch = '\\' then (litScan q r).map (fun p => (ch :: d :: p.1, p.2))
            else (litScan q (d :: r)).map (fun p => (ch :: p.1, p.2)) from rfl]
      rw [if_neg hch.1, if_neg hch.2, ← hrw, ih post htl]
      simp

theorem findLits_skip (q : Char) :
    ∀ pre rest, (∀ ch ∈ pre, ¬ch = q) →
      findLits q (pre ++ rest) = findLits q rest := by
  intro pre
  induction pre with
  | nil => intro rest _; rfl
  | cons c t ih =>
    intro rest h
    rw [List.cons_append, findLits_cons_ne q c _ (h c (by simp))]
    exact ih rest (fun ch hch => h ch (List.mem_cons_of_mem c hch))

theorem findLits_single (q : Char) (pre content post : List Char)
    (hpre : ∀ ch ∈ pre, ¬ch = q)
    (hcon : ∀ ch ∈ content, ¬ch = q ∧ ¬ch = '\\')
    (hpost : ∀ ch ∈ post, ¬ch = q) :
    findLits q (pre ++ (q :: (content ++ (q :: post)))) =
      [q :: (content ++ [q])] := by
  rw [findLits_skip q pre _ hpre,
    findLits_cons_match q _ _ _ (litScan_closes q content post hcon),
    findLits_none q post hpost]

theorem replaceFirst_at (q : Char) (pat' : List Char) :
    ∀ xs zs rep, (∀ ch ∈ xs, ¬ch = q) →
      replaceFirst (xs ++ ((q :: pat') ++ zs)) (q :: pat') rep =
        xs ++ (rep ++ zs) := by
  intro xs
  induction xs with
  | nil =>
    intro zs rep _
    show replaceFirst ((q :: pat') ++ zs) (q :: pat') rep = rep ++ zs
    rw [show (q :: pat') ++ zs = q :: (pat' ++ zs) from rfl]
    rw [show replaceFirst (q :: (pat' ++ zs)) (q :: pat') rep
        = if strStarts (q :: pat') (q :: (pat' ++ zs)) then
            rep ++ (q :: (pat' ++ zs)).drop (q :: pat').length
          else q :: replaceFirst (pat' ++ zs) (q :: pat') rep from rfl]
    rw [if_pos (show strStarts (q :: pat') (q :: (pat' ++ zs)) = true
      from strStarts_append_self (q :: pat') zs)]
    congr 1
    show (pat' ++ zs).drop pat'.length = zs
    exact List.drop_left pat' zs
  | cons x t ih =>
    intro zs rep h
    have hx := h x (by simp)
    have hstart : strStarts (q :: pat') (x :: (t ++ ((q :: pat') ++ zs))) = false := by
      simp only [strStarts, Bool.and_eq_false_iff]
      left
      simp only [decide_eq_false_iff_not]
      exact fun he => hx he.symm
    show replaceFirst (x :: (t ++ ((q :: pat') ++ zs))) (q :: pat') rep = _
    rw [show replaceFirst (x :: (t ++ ((q :: pat') ++ zs))) (q :: pat') rep
        = if strStarts (q :: pat') (x :: (t ++ ((q :: pat') ++ zs))) then
            rep ++ (x :: (t ++ ((q :: pat') ++ zs))).drop (q :: pat').length
          else x :: replaceFirst (t ++ ((q :: pat') ++ zs)) (q :: pat') rep from rfl]
    rw [hstart, if_neg (by simp)]
    rw [ih zs rep (fun ch hch => h ch (List.mem_cons_of_mem x hch))]
    rfl

theorem replaceAll_skip_all (hc : Char) (pat rep : List Char)
    (hhd : pat.head? = some hc) :
    ∀ l, (∀ ch ∈ l, ¬ch = hc) → replaceAll l pat rep = l := by
  have hpn : pat ≠ [] := by
    intro he
    rw [he] at hhd
    cases hhd
  intro l
  induction l with
  | nil => intro _; rfl
  | cons c r ih =>
    intro h
    have hstart : strStarts pat (c :: r) = false := by
      cases pat with
      | nil => exact absurd rfl hpn
      | cons p ps =>
        simp only [List.head?_cons, Option.some.injEq] at hhd
        subst hhd
        simp only [strStarts, Bool.and_eq_false_iff]
        left
        simp only [decide_eq_false_iff_not]
        exact fun he => (h c (by simp)) he.symm
    rw [replaceAll_neg c r pat rep (by simp [hstart])]
    rw [ih (fun ch hch => h ch (List.mem_cons_of_mem c hch))]

theorem replaceAll_boundary (hc : Char) (pat rep : List Char)
    (hhd : pat.head? = some hc) :
    ∀ xs zs, (∀ ch ∈ xs, ¬ch = hc) → (∀ ch ∈ zs, ¬ch = hc) →
      replaceAll (xs ++ (pat ++ zs)) pat rep = xs ++ (rep ++ zs) := by
  have hpn : pat ≠ [] := by
    intro he
    rw [he] at hhd
    cases hhd
  intro xs
  induction xs with
  | nil =>
    intro zs _ hzs
    show replaceAll (pat ++ zs) pat rep = rep ++ zs
    rw [replaceAll_pos (pat ++ zs) pat rep hpn (strStarts_append_self pat zs)]
    rw [List.drop_left pat zs, replaceAll_skip_all hc pat rep hhd zs hzs]
  | cons x t ih =>
    intro zs h hzs
    have hx := h x (by simp)
    have hstart : strStarts pat (x :: (t ++ (pat ++ zs))) = false := by
      cases pat with
      | nil => exact absurd rfl hpn
      | cons p ps =>
        simp only [List.head?_cons, Option.some.injEq] at hhd
        subst hhd
        simp only [strStarts, Bool.and_eq_false_iff]
        left
        simp only [decide_eq_false_iff_not]
        exact fun he => hx he.symm
    show replaceAll (x :: (t ++ (pat ++ zs))) pat rep = _
    rw [replaceAll_neg x _ pat rep (by simp [hstart])]
    rw [ih zs (fun ch hch => h ch (List.mem_cons_of_mem x hch)) hzs]
    rfl

/-- On a line `pre ++ "content" ++ post` whose only quotes are the two
literal delimiters, `_protect_strings` finds exactly that literal, replaces
it by `__STRING_0__`, and records the single map entry. -/
theorem protect_strings_single (pre content post : List Char)
    (hpre : ∀ ch ∈ pre, ¬ch = '"' ∧ ¬ch = '\'')
    (hcon : ∀ ch ∈ content, ¬ch = '"' ∧ ¬ch = '\\')
    (hpost : ∀ ch ∈ post, ¬ch = '"' ∧ ¬ch = '\'') :
    protect_strings (pre ++ ('"' :: (content ++ ('"' :: post)))) =
      (pre ++ (strPlaceholder 0 ++ post),
        [(strPlaceholder 0, '"' :: (content ++ ['"']))]) := by
  have hms : findLits '"' (pre ++ ('"' :: (content ++ ('"' :: post)))) =
      ['"' :: (content ++ ['"'])] :=
    findLits_single '"' pre content post (fun ch hch => (hpre ch hch).1) hcon
      (fun ch hch => (hpost ch hch).1)
  have hrep : replaceFirst (pre ++ ('"' :: (content ++ ('"' :: post))))
      ('"' :: (content ++ ['"'])) (strPlaceholder 0) =
      pre ++ (strPlaceholder 0 ++ post) := by
    rw [show pre ++ ('"' :: (content ++ ('"' :: post)))
        = pre ++ (('"' :: (content ++ ['"'])) ++ post) by simp]
    exact replaceFirst_at '"' (content ++ ['"']) pre post (strPlaceholder 0)
      (fun ch hch => (hpre ch hch).1)
  have hcs : findLits '\'' (pre ++ (strPlaceholder 0 ++ post)) = [] := by
    refine findLits_none '\'' _ ?_
    intro ch hch
    rcases List.mem_append.mp hch with h1 | h1
    · exact (hpre ch h1).2
    · rcases List.mem_append.mp h1 with h2 | h2
      · intro he
        subst he
        exact absurd h2 (by decide)
      · exact (hpost ch h2).2
  simp only [protect_strings, hms, protectPass, hrep, hcs, List.append_nil,
    List.nil_append]

theorem removeLineComment_append (xs : List Char) :
    ∀ ys, (∀ ch ∈ xs, ¬ch = '/') →
      removeLineComment (xs ++ ys) = xs ++ removeLineComment ys := by
  induction xs with
  | nil => intro ys _; rfl
  | cons c t ih =>
    intro ys h
    have hc := h c (by simp)
    cases hty : t ++ ys with
    | nil =>
      obtain ⟨ht, hy⟩ := List.append_eq_nil.mp hty
      subst ht
      subst hy
      rfl
    | cons d r =>
      show removeLineComment (c :: (t ++ ys)) = _
      rw [hty]
      rw [show removeLineComment (c :: d :: r)
          = if c = '/' ∧ d = '/' then [] else c :: removeLineComment (d :: r) from rfl]
      rw [if_neg (fun hcd => hc hcd.1), ← hty,
        ih ys (fun ch hch => h ch (List.mem_cons_of_mem c hch))]
      rfl

theorem findIdx2_append_map (x y : Char) (xs : List Char) :
    ∀ ys, (∀ ch ∈ xs, ¬ch = x) →
      findIdx2 x y (xs ++ ys) = (findIdx2 x y ys).map (· + xs.length) := by
  induction xs with
  | nil =>
    intro ys _
    rw [List.nil_append]
    cases findIdx2 x y ys <;> simp
  | cons c t ih =>
    intro ys h
    have hc := h c (by simp)
    cases hty : t ++ ys with
    | nil =>
      obtain ⟨ht, hy⟩ := List.append_eq_nil.mp hty
      subst ht
      subst hy
      simp [findIdx2]
    | cons d r =>
      show findIdx2 x y (c :: (t ++ ys)) = _
      rw [hty]
      rw [show findIdx2 x y (c :: d :: r)
          = if c = x ∧ d = y then some 0 else (findIdx2 x y (d :: r)).map (· + 1) from rfl]
      rw [if_neg (fun hcd => hc hcd.1), ← hty,
        ih ys (fun ch hch => h ch (List.mem_cons_of_mem c hch))]
      rcases findIdx2 x y ys with _ | i
      · simp
      · simp only [Option.map_some', List.length_cons]
        rw [Option.some.injEq]
        omega

theorem restore_literal_tail (pre content q2 : List Char)
    (hpre : ∀ ch ∈ pre, ¬ch = '_')
    (hq2 : ∀ ch ∈ q2, ¬ch = '_') :
    pyRstrip (restore_strings (pre ++ (strPlaceholder 0 ++ q2))
        [(strPlaceholder 0, '"' :: (content ++ ['"']))]) =
      pre ++ ('"' :: (content ++ ('"' :: pyRstrip q2))) := by
  have hres : restore_strings (pre ++ (strPlaceholder 0 ++ q2))
      [(strPlaceholder 0, '"' :: (content ++ ['"']))] =
      pre ++ (('"' :: (content ++ ['"'])) ++ q2) := by
    show replaceAll (pre ++ (strPlaceholder 0 ++ q2)) (strPlaceholder 0)
        ('"' :: (content ++ ['"'])) = _
    exact replaceAll_boundary '_' (strPlaceholder 0) _ (by decide) pre q2 hpre hq2
  rw [hres]
  rw [show pre ++ (('"' :: (content ++ ['"'])) ++ q2)
      = ((pre ++ ('"' :: content)) ++ ['"']) ++ q2 by simp]
  rw [pyRstrip_append _ q2 (pyRstrip_concat_of_not_space _ '"' (by decide))]
  simp

theorem literal_line_not_blank (pre content tail2 : List Char) :
    pyStrip (pre ++ ('"' :: (content ++ ('"' :: tail2)))) ≠ [] :=
  pyStrip_ne_nil_of_mem (c := '"')
    (List.mem_append.mpr (Or.inr (by simp))) (by decide)

/-- On a line `pre ++ "content" ++ post` where the literal is the only
quoted material, `_process_line` keeps the literal byte-identical: the
output is the line with only `post` affected by comment removal and
trailing-whitespace trimming. -/
theorem process_line_literal (pre content post : List Char)
    (hpre : ∀ ch ∈ pre,
      ¬ch = '"' ∧ ¬ch = '\'' ∧ ¬ch = '\\' ∧ ¬ch = '/' ∧ ¬ch = '_')
    (hcon : ∀ ch ∈ content, ¬ch = '"' ∧ ¬ch = '\\')
    (hpost : ∀ ch ∈ post, ¬ch = '"' ∧ ¬ch = '\'' ∧ ¬ch = '_') :
    ∃ tail f, process_line (pre ++ ('"' :: (content ++ ('"' :: post)))) false =
      (some (pre ++ ('"' :: (content ++ ('"' :: tail)))), f) := by
  have hprot : protect_strings (pre ++ ('"' :: (content ++ ('"' :: post)))) =
      (pre ++ (strPlaceholder 0 ++ post),
        [(strPlaceholder 0, '"' :: (content ++ ['"']))]) :=
    protect_strings_single pre content post
      (fun ch hch => ⟨(hpre ch hch).1, (hpre ch hch).2.1⟩) hcon
      (fun ch hch => ⟨(hpost ch hch).1, (hpost ch hch).2.1⟩)
  set A := pre ++ strPlaceholder 0 with hA
  have hslashfree : ∀ ch ∈ A, ¬ch = '/' := by
    intro ch hch
    rcases List.mem_append.mp hch with h1 | h1
    · exact (hpre ch h1).2.2.2.1
    · intro he
      subst he
      exact absurd h1 (by decide)
  have hrl : removeLineComment (pre ++ (strPlaceholder 0 ++ post)) =
      A ++ removeLineComment post := by
    rw [show pre ++ (strPlaceholder 0 ++ post)
        = (pre ++ strPlaceholder 0) ++ post by simp]
    exact removeLineComment_append A post hslashfree
  set P1 := removeLineComment post with hP1
  have hP1mem : ∀ ch ∈ P1, ch ∈ post := fun ch hch => mem_removeLineComment post hch
  have hfind : findIdx2 '/' '*' (A ++ P1) =
      (findIdx2 '/' '*' P1).map (· + A.length) :=
    findIdx2_append_map '/' '*' A P1 hslashfree
  have hfinish : ∀ (q : List Char) (flg : Bool), (∀ ch ∈ q, ch ∈ post) →
      (if pyStrip (pyRstrip (restore_strings (A ++ q)
          [(strPlaceholder 0, '"' :: (content ++ ['"']))])) = []
        then (none, flg)
        else (some (pyRstrip (restore_strings (A ++ q)
          [(strPlaceholder 0, '"' :: (content ++ ['"']))])), flg))
      = ((some (pre ++ ('"' :: (content ++ ('"' :: pyRstrip q))))
            : Option (List Char)), flg) := by
    intro q flg hqmem
    have hassoc : A ++ q = pre ++ (strPlaceholder 0 ++ q) := by
      rw [hA]
      simp
    have hq' : ∀ ch ∈ q, ¬ch = '_' := fun ch hch => (hpost ch (hqmem ch hch)).2.2
    have hpre' : ∀ ch ∈ pre, ¬ch = '_' := fun ch hch => (hpre ch hch).2.2.2.2
    rw [hassoc, restore_literal_tail pre content q hpre' hq']
    rw [if_neg (literal_line_not_blank pre content (pyRstrip q))]
  simp only [process_line, if_neg Bool.false_ne_true, hprot, hrl, hfind]
  cases hcase : findIdx2 '/' '*' P1 with
  | none =>
    simp only [Option.map_none']
    exact ⟨pyRstrip P1, false, hfinish P1 false hP1mem⟩
  | some i =>
    simp only [Option.map_some']
    have hdropA : (A ++ P1).drop (i + A.length + 2) = P1.drop (i + 2) := by
      rw [show i + A.length + 2 = A.length + (i + 2) by omega]
      exact List.drop_append _
    rw [hdropA]
    cases hcase2 : findIdx2 '*' '/' (P1.drop (i + 2)) with
    | none =>
      have htakeA : (A ++ P1).take (i + A.length) = A ++ P1.take i := by
        rw [show i + A.length = A.length + i by omega]
        exact List.take_append _
      rw [htakeA]
      exact ⟨pyRstrip (P1.take i), true,
        hfinish (P1.take i) true
          (fun ch hch => hP1mem ch (List.mem_of_mem_take hch))⟩
    | some j =>
      have htakeA : (A ++ P1).take (i + A.length) = A ++ P1.take i := by
        rw [show i + A.length = A.length + i by omega]
        exact List.take_append _
      have hdropA2 : (A ++ P1).drop (i + A.length + 2 + j + 2) =
          P1.drop (i + 2 + j + 2) := by
        rw [show i + A.length + 2 + j + 2 = A.length + (i + 2 + j + 2) by omega]
        exact List.drop_append _
      rw [htakeA]
      dsimp only
      rw [hdropA2]
      rw [show (A ++ P1.take i) ++ P1.drop (i + 2 + j + 2)
          = A ++ (P1.take i ++ P1.drop (i + 2 + j + 2)) by simp]
      refine ⟨pyRstrip (P1.take i ++ P1.drop (i + 2 + j + 2)), false,
        hfinish _ false ?_⟩
      intro ch hch
      rcases List.mem_append.mp hch with h1 | h1
      · exact hP1mem ch (List.mem_of_mem_take h1)
      · exact hP1mem ch (List.mem_of_mem_drop h1)

/-- C1 counterexample: the placeholder format can collide with source
text.  The input `__STRING_0__ "//"` contains the literal `"//"` and, as
ordinary source text, the placeholder-shaped `__STRING_0__`; the output is
`"//" "//"`: restoration replaced the pre-existing `__STRING_0__` text as
well, corrupting the line (the literal itself survives). -/
theorem claim1_counterexample :
    occursSub "__STRING_0__".data "__STRING_0__ \"//\"".data = true ∧
      remove_comments "__STRING_0__ \"//\"" = "\"//\" \"//\"" ∧
      occursSub "__STRING_0__".data (remove_comments "__STRING_0__ \"//\"").data
        = false := by
  refine ⟨by decide, by decide, by decide⟩

/-- C1 (amended): every double-quoted literal whose content may contain
`//` or `/*` appears byte-identical in the output, provided the
placeholder cannot collide: on a single-line input `pre ++ "content" ++
post` where the literal is the only quoted material (no quote, apostrophe
or backslash around it), `pre` contains no slash and no underscore, and
`post` contains no underscore, the output is the same line with the
literal intact and only `post` affected. -/
theorem claim1_literal_byte_identical (pre content post : List Char)
    (hpre : ∀ ch ∈ pre,
      ¬ch = '"' ∧ ¬ch = '\'' ∧ ¬ch = '\\' ∧ ¬ch = '/' ∧ ¬ch = '_' ∧ ¬ch = '\n')
    (hcon : ∀ ch ∈ content, ¬ch = '"' ∧ ¬ch = '\\' ∧ ¬ch = '\n')
    (hpost : ∀ ch ∈ post, ¬ch = '"' ∧ ¬ch = '\'' ∧ ¬ch = '_' ∧ ¬ch = '\n') :
    ∃ tail, removeCommentsL (pre ++ ('"' :: (content ++ ('"' :: post)))) =
      pre ++ ('"' :: (content ++ ('"' :: tail))) := by
  obtain ⟨tail, f, hp⟩ := process_line_literal pre content post
    (fun ch hch => ⟨(hpre ch hch).1, (hpre ch hch).2.1, (hpre ch hch).2.2.1,
      (hpre ch hch).2.2.2.1, (hpre ch hch).2.2.2.2.1⟩)
    (fun ch hch => ⟨(hcon ch hch).1, (hcon ch hch).2.1⟩)
    (fun ch hch => ⟨(hpost ch hch).1, (hpost ch hch).2.1, (hpost ch hch).2.2.1⟩)
  have hnl : ('\n' : Char) ∉ pre ++ ('"' :: (content ++ ('"' :: post))) := by
    intro hm
    rcases List.mem_append.mp hm with h1 | h1
    · exact (hpre _ h1).2.2.2.2.2 rfl
    · rcases List.mem_cons.mp h1 with h2 | h2
      · exact absurd h2 (by decide)
      · rcases List.mem_append.mp h2 with h3 | h3
        · exact (hcon _ h3).2.2 rfl
        · rcases List.mem_cons.mp h3 with h4 | h4
          · exact absurd h4 (by decide)
          · exact (hpost _ h4).2.2.2 rfl
  exact ⟨tail, removeComments_single_line _ _ f hnl
    (literal_line_not_blank pre content post) hp⟩

/-- Witness for C1 (amended): the line `x = "a//b"; y` keeps the literal
`"a//b"` byte-identical. -/
theorem claim1_witness :
    ∃ tail, removeCommentsL ("x = ".data ++ ('"' :: ("a//b".data ++ ('"' :: "; y ".data))))
      = "x = ".data ++ ('"' :: ("a//b".data ++ ('"' :: tail))) :=
  claim1_literal_byte_identical "x = ".data "a//b".data "; y ".data
    (by decide) (by decide) (by decide)

/-- C6: on a single line (processed with the carried flag clear) that,
after literal protection, contains two complete `/*...*/` block comments,
only the first comment span is removed; the text of the second complete
block comment (`/*`, its body `d`, and `*/`) remains in the output of
`remove_comments` unchanged. -/
theorem claim6_only_first_block_comment_removed (a b c d e : List Char)
    (hq : ∀ ch ∈ a ++ ('/' :: '*' :: (b ++ ('*' :: '/' :: (c ++ ('/' :: '*' :: (d ++ ('*' :: '/' :: e))))))),
      ¬ch = '"')
    (hs : ∀ ch ∈ a ++ ('/' :: '*' :: (b ++ ('*' :: '/' :: (c ++ ('/' :: '*' :: (d ++ ('*' :: '/' :: e))))))),
      ¬ch = '\'')
    (hnl : ('\n' : Char) ∉
      a ++ ('/' :: '*' :: (b ++ ('*' :: '/' :: (c ++ ('/' :: '*' :: (d ++ ('*' :: '/' :: e))))))))
    (hline : occursSub "//".data
      (a ++ ('/' :: '*' :: (b ++ ('*' :: '/' :: (c ++ ('/' :: '*' :: (d ++ ('*' :: '/' :: e)))))))) = false)
    (ha : occursSub "/*".data a = false)
    (hb : occursSub "*/".data b = false) :
    removeCommentsL
        (a ++ ('/' :: '*' :: (b ++ ('*' :: '/' :: (c ++ ('/' :: '*' :: (d ++ ('*' :: '/' :: e))))))))
      = a ++ (c ++ ('/' :: '*' :: (d ++ ('*' :: '/' :: pyRstrip e)))) := by
  have hp := process_line_two_comments a b c d e hq hs hline ha hb
  have hws : pyStrip
      (a ++ ('/' :: '*' :: (b ++ ('*' :: '/' :: (c ++ ('/' :: '*' :: (d ++ ('*' :: '/' :: e)))))))) ≠ [] := by
    refine pyStrip_ne_nil_of_mem (c := '/') ?_ (by decide)
    exact List.mem_append.mpr (Or.inr (by simp))
  exact removeComments_single_line _ _ false hnl hws hp

/-- Witness for C6 at a concrete line with two complete block comments:
`x = 1; /* one */ y; /* two */ z;` keeps `/* two */`. -/
theorem claim6_witness :
    removeCommentsL
        ("x = 1; ".data ++ ('/' :: '*' :: (" one ".data ++ ('*' :: '/' ::
          (" y; ".data ++ ('/' :: '*' :: (" two ".data ++ ('*' :: '/' :: " z;  ".data))))))))
      = "x = 1; ".data ++ (" y; ".data ++ ('/' :: '*' :: (" two ".data ++
          ('*' :: '/' :: pyRstrip " z;  ".data)))) :=
  claim6_only_first_block_comment_removed "x = 1; ".data " one ".data " y; ".data
    " two ".data " z;  ".data (by decide) (by decide) (by decide) (by decide)
    (by decide) (by decide)

/-- Witness for C4 (amended) at a concrete comment-free input. -/
theorem claim4_witness :
    removeCommentsL "int x = 1;  \n   \nreturn 0;".data =
      joinNl ((splitNl "int x = 1;  \n   \nreturn 0;".data).filterMap
        (fun l => if isBlank l = true then none else some (pyRstrip l))) :=
  claim4_idempotent_on_comment_free "int x = 1;  \n   \nreturn 0;".data
    (by decide) (by decide) (by decide) (by decide) (by decide)

end PyTools
